import Mathlib

/-!
Shallow embedding of the mytorch reverse-mode automatic-differentiation core
(`mytorch/base.py`, `mytorch/functions.py`, `mytorch/utils.py`, and the
`SGD.update_one` rule of `mytorch/optimizers.py`), together with proofs about
the embedded definitions.

Modelling conventions:
* numpy arrays become `Tensor`: a shape (list of dimension sizes) plus the
  row-major flat data; entries are integers, which suffices for the structural
  and sign properties proved here.
* The mutable object graph of `Variable` and `Function` instances becomes an
  explicit `State`: a list of variable records and a list of function records,
  addressed by position.  Python object identity becomes the index.
* `Config.enable_backprop` (process-global in the source) is carried as a
  field of `State`.
* Python exceptions are modelled by an error field carrying a message; the
  state at the moment the exception is raised is kept, since in Python the
  mutations performed before the exception persist.
* Python's `list.sort(key=...)` is stable; it is modelled with the stable
  `List.insertionSort`, which produces the same list as any stable sort.
-/

namespace MyTorch

/-- A dense numpy array: shape and row-major flat data. -/
structure Tensor where
  shape : List Nat
  data : List Int
deriving DecidableEq, Repr

/-- Default tensor used for out-of-range lookups. -/
def dTensor : Tensor := ⟨[], []⟩

instance : Inhabited Tensor := ⟨dTensor⟩

/-- Number of elements of a shape. -/
def numel (shape : List Nat) : Nat := shape.prod

/-- `np.ones(shape)`. -/
def onesData (shape : List Nat) : Tensor := ⟨shape, List.replicate (numel shape) 1⟩

/-- Row-major multi-index of flat position `p` in the given shape. -/
def unflattenIdx : List Nat → Nat → List Nat
  | [], _ => []
  | _ :: ds, p => p / ds.prod :: unflattenIdx ds (p % ds.prod)

/-- Row-major flat position of a multi-index in the given shape. -/
def flattenIdx : List Nat → List Nat → Nat
  | [], _ => 0
  | _ :: ds, m => m.headD 0 * ds.prod + flattenIdx ds m.tail

/-- Common shape of two operand shapes, aligned from the right
(numpy broadcasting; both lists are given reversed). -/
def bcastRev : List Nat → List Nat → List Nat
  | [], l => l
  | a :: l, [] => a :: l
  | a :: l, b :: l2 => max a b :: bcastRev l l2

/-- numpy broadcast result shape of two operand shapes. -/
def commonShape (s1 s2 : List Nat) : List Nat := (bcastRev s1.reverse s2.reverse).reverse

/-- `np.broadcast_to(t, shape)`: size-1 axes are repeated, and the shape is
left-padded with size-1 axes up to the target rank. -/
def broadcastToData (t : Tensor) (shape : List Nat) : Tensor :=
  let padded := List.replicate (shape.length - t.shape.length) 1 ++ t.shape
  ⟨shape, (List.range (numel shape)).map (fun p =>
    let m := unflattenIdx shape p
    let m2 := List.zipWith (fun d mi => if d = 1 then 0 else mi) padded m
    t.data.getD (flattenIdx padded m2) 0)⟩

/-- Elementwise binary numpy operation with broadcasting. -/
def elemwise2 (f : Int → Int → Int) (a b : Tensor) : Tensor :=
  let sh := commonShape a.shape b.shape
  ⟨sh, List.zipWith f (broadcastToData a sh).data (broadcastToData b sh).data⟩

/-- numpy `x0 + x1`. -/
def addData (a b : Tensor) : Tensor := elemwise2 (· + ·) a b

/-- numpy `x0 * x1`. -/
def mulData (a b : Tensor) : Tensor := elemwise2 (· * ·) a b

/-- numpy `-x`. -/
def negData (t : Tensor) : Tensor := ⟨t.shape, t.data.map (fun v => -v)⟩

/-- numpy `x.sum(axis=axes, keepdims=True)`: summed axes become size 1. -/
def sumAxesKeep (t : Tensor) (axes : List Nat) : Tensor :=
  let outShape := (List.range t.shape.length).map
    (fun i => if i ∈ axes then 1 else t.shape.getD i 0)
  ⟨outShape, (List.range (numel outShape)).map (fun p =>
    let m := unflattenIdx outShape p
    (((List.range (numel t.shape)).filter (fun q =>
        let mq := unflattenIdx t.shape q
        (List.range t.shape.length).all
          (fun i => axes.contains i || (mq.getD i 0 == m.getD i 0)))).map
      (fun q => t.data.getD q 0)).sum)⟩

/-- `mytorch.utils.sum_to(x, shape)`: sum leading axes and the axes where the
target dimension is 1 (keepdims), then squeeze the leading axes. -/
def sumToData (t : Tensor) (shape : List Nat) : Tensor :=
  let ndim := shape.length
  let lead := t.shape.length - ndim
  let leadAxis := List.range lead
  let axis := ((List.range ndim).filter (fun i => shape.getD i 0 = 1)).map (fun i => i + lead)
  let y := sumAxesKeep t (leadAxis ++ axis)
  if 0 < lead then ⟨y.shape.drop lead, y.data⟩ else y

/-- `np.argsort(l)`: the indices of `l` in order of increasing value
(`tuple(np.array(self.axes).argsort())` in `Transpose.backward`). -/
def argsortL (l : List Nat) : List Nat :=
  List.insertionSort (fun i j => l.getD i 0 ≤ l.getD j 0) (List.range l.length)

/-- `x.transpose(a)` for an explicit permutation `a` of the axes: axis `i` of
the result is axis `a[i]` of the input. -/
def transposePerm (t : Tensor) (a : List Nat) : Tensor :=
  let sh := a.map (fun i => t.shape.getD i 0)
  ⟨sh, (List.range (numel sh)).map (fun p =>
    let m := unflattenIdx sh p
    let j := (List.range t.shape.length).map (fun k => m.getD (a.indexOf k) 0)
    t.data.getD (flattenIdx t.shape j) 0)⟩

/-- numpy `x.transpose(axes)`; `axes = None` reverses the axis order. -/
def transposeData (t : Tensor) (axes : Option (List Nat)) : Tensor :=
  match axes with
  | none => transposePerm t (List.range t.shape.length).reverse
  | some a => transposePerm t a

/-!
## The object graph

`Variable` records the fields set by `Variable.__init__` / `set_creator`;
`Function` records the bookkeeping stored by `Function.__call__`.  The `grad`
field of a Python `Variable` may hold either a raw array or a `Variable`;
`GVal` models that distinction (the backward pass only ever stores
Variables — proved below).
-/

/-- A value stored in a `grad` field: either a raw ndarray or a `Variable`
(referenced by index). -/
inductive GVal where
  | gArr (t : Tensor)
  | gVar (v : Nat)
deriving DecidableEq, Repr

/-- The fields of a `mytorch.Variable` holding array data. -/
structure Variable where
  data : Tensor
  grad : Option GVal
  creator : Option Nat
  generation : Nat
deriving DecidableEq, Repr

/-- Default variable record for out-of-range lookups. -/
def dVariable : Variable := ⟨dTensor, none, none, 0⟩

/-- The operation kinds embedded here, with their constructor arguments. -/
inductive OpKind where
  | addOp
  | mulOp
  | negOp
  | transposeOp (axes : Option (List Nat))
  | broadcastToOp (shape : List Nat)
  | sumToOp (shape : List Nat)
deriving DecidableEq, Repr

/-- Context a `Function` saves during `forward` for use in `backward`
(`self.x0_shape, self.x1_shape` in `Add`, `self.x_shape` in
`BroadcastTo`/`SumTo`). -/
inductive Saved where
  | sNone
  | sShapes (x0 x1 : List Nat)
  | sShape (x : List Nat)
deriving DecidableEq, Repr

/-- The fields of a `mytorch.Function` after `__call__` (all our functions
produce a single output, as every concrete subclass in the source does). -/
structure Function where
  kind : OpKind
  saved : Saved
  inputs : List Nat
  outputs : List Nat
  generation : Nat
deriving DecidableEq, Repr

/-- Default function record for out-of-range lookups. -/
def dFunction : Function := ⟨OpKind.negOp, Saved.sNone, [], [], 0⟩

/-- The whole object graph: variables and functions addressed by index, plus
the process-wide `Config.enable_backprop` flag. -/
structure State where
  vars : List Variable
  funcs : List Function
  enable_backprop : Bool
deriving DecidableEq, Repr

/-- The empty graph with gradient tracking enabled (the default). -/
def emptyState : State := ⟨[], [], true⟩

/-- Look up a variable record. -/
def State.varOf (s : State) (v : Nat) : Variable := s.vars.getD v dVariable

/-- Look up a function record. -/
def State.funcOf (s : State) (f : Nat) : Function := s.funcs.getD f dFunction

/-- Generation of a function (the sort key of the backward worklist). -/
def genOfF (s : State) (f : Nat) : Nat := (s.funcOf f).generation

/-- Assign the `grad` field of a variable. -/
def State.setGrad (s : State) (v : Nat) (g : Option GVal) : State :=
  { s with vars := s.vars.set v { s.vars.getD v dVariable with grad := g } }

/-- `Variable.cleargrad`. -/
def cleargrad (s : State) (v : Nat) : State := s.setGrad v none

/-- `Variable(data)` for ndarray data: a fresh leaf (no creator, generation 0).
Returns the index of the new variable. -/
def newVar (s : State) (t : Tensor) : Nat × State :=
  (s.vars.length, { s with vars := s.vars ++ [⟨t, none, none, 0⟩] })

/-- The raw Python values fed to `Variable.__init__` / `as_variable`:
a raw scalar, an ndarray, or an existing `Variable`. -/
inductive PyData where
  | pyScalar (x : Int)
  | pyArr (t : Tensor)
  | pyVar (v : Nat)
deriving DecidableEq, Repr

/-- `Variable.__init__`: accepts an ndarray and raises
`TypeError("... is not supported")` on any other (non-`None`) data. -/
def variableInit (s : State) (d : PyData) : Except String (Nat × State) :=
  match d with
  | PyData.pyArr t => Except.ok (newVar s t)
  | _ => Except.error "TypeError: data is not supported"

/-- `as_variable(x)`: pass a `Variable` through, otherwise construct one. -/
def as_variable (s : State) (x : PyData) : Except String (Nat × State) :=
  match x with
  | PyData.pyVar v => Except.ok (v, s)
  | _ => variableInit s x

/-- The `forward` rule of each operation kind, together with the context it
saves for `backward`. -/
def forwardK : OpKind → List Tensor → Tensor × Saved
  | OpKind.addOp, xs =>
      let x0 := xs.getD 0 dTensor
      let x1 := xs.getD 1 dTensor
      (addData x0 x1, Saved.sShapes x0.shape x1.shape)
  | OpKind.mulOp, xs => (mulData (xs.getD 0 dTensor) (xs.getD 1 dTensor), Saved.sNone)
  | OpKind.negOp, xs => (negData (xs.getD 0 dTensor), Saved.sNone)
  | OpKind.transposeOp axes, xs => (transposeData (xs.getD 0 dTensor) axes, Saved.sNone)
  | OpKind.broadcastToOp sh, xs =>
      let x := xs.getD 0 dTensor
      (broadcastToData x sh, Saved.sShape x.shape)
  | OpKind.sumToOp sh, xs =>
      let x := xs.getD 0 dTensor
      (sumToData x sh, Saved.sShape x.shape)

/-- Maximum of a list of naturals, as Python `max` on a nonempty list. -/
def maxL (l : List Nat) : Nat := l.foldl max 0

/-- `Function.__call__` on variables already in the graph: run `forward`,
wrap the result as a fresh output variable and, when gradient tracking is
enabled, set the generation bookkeeping (`self.generation = max(input
generations)`, `output.set_creator(self)` giving the output generation
`self.generation + 1`) and record inputs and (weak) outputs.  Returns the
output variable index. -/
def callFn (s : State) (k : OpKind) (inputs : List Nat) : Nat × State :=
  let xs := inputs.map (fun v => (s.varOf v).data)
  let ys := forwardK k xs
  let vid := s.vars.length
  if s.enable_backprop then
    let g := maxL (inputs.map (fun v => (s.varOf v).generation))
    let fid := s.funcs.length
    (vid, { s with
      vars := s.vars ++ [⟨ys.1, none, some fid, g + 1⟩],
      funcs := s.funcs ++ [⟨k, ys.2, inputs, [vid], g⟩] })
  else
    (vid, { s with vars := s.vars ++ [⟨ys.1, none, none, 0⟩] })

/-- `mytorch.add`. -/
def addF (s : State) (x0 x1 : Nat) : Nat × State := callFn s OpKind.addOp [x0, x1]

/-- `mytorch.mul`. -/
def mulF (s : State) (x0 x1 : Nat) : Nat × State := callFn s OpKind.mulOp [x0, x1]

/-- `mytorch.neg`. -/
def negF (s : State) (x : Nat) : Nat × State := callFn s OpKind.negOp [x]

/-- `mytorch.functions.transpose`. -/
def transposeF (s : State) (x : Nat) (axes : Option (List Nat)) : Nat × State :=
  callFn s (OpKind.transposeOp axes) [x]

/-- `mytorch.functions.broadcast_to`: a no-op returning the input variable
itself when the shape already matches, else a `BroadcastTo` operation. -/
def broadcast_to (s : State) (x : Nat) (shape : List Nat) : Nat × State :=
  if (s.varOf x).data.shape = shape then (x, s)
  else callFn s (OpKind.broadcastToOp shape) [x]

/-- `mytorch.functions.sum_to`: a no-op returning the input variable itself
when the shape already matches, else a `SumTo` operation. -/
def sum_to (s : State) (x : Nat) (shape : List Nat) : Nat × State :=
  if (s.varOf x).data.shape = shape then (x, s)
  else callFn s (OpKind.sumToOp shape) [x]

/-- The `backward` rule of each function: gradients of the inputs given the
gradient `dy` of the single output, computed with `Variable` arithmetic (so
it builds new graph nodes, exactly as the source does). -/
def backwardK (s : State) (f : Function) (dy : Nat) : List Nat × State :=
  match f.kind with
  | OpKind.addOp =>
      match f.saved with
      | Saved.sShapes sh0 sh1 =>
          if sh0 ≠ sh1 then
            let r0 := sum_to s dy sh0
            let r1 := sum_to r0.2 dy sh1
            ([r0.1, r1.1], r1.2)
          else ([dy, dy], s)
      | _ => ([dy, dy], s)
  | OpKind.mulOp =>
      let x0 := f.inputs.getD 0 0
      let x1 := f.inputs.getD 1 0
      let r0 := mulF s dy x1
      let r1 := mulF r0.2 dy x0
      if (s.varOf x0).data.shape ≠ (s.varOf x1).data.shape then
        let r0s := sum_to r1.2 r0.1 (s.varOf x0).data.shape
        let r1s := sum_to r0s.2 r1.1 (s.varOf x1).data.shape
        ([r0s.1, r1s.1], r1s.2)
      else ([r0.1, r1.1], r1.2)
  | OpKind.negOp =>
      let rdx := negF s dy
      let rr := negF rdx.2 rdx.1
      ([rr.1], rr.2)
  | OpKind.transposeOp axes =>
      match axes with
      | none =>
          let r := transposeF s dy none
          ([r.1], r.2)
      | some a =>
          let r := transposeF s dy (some (argsortL a))
          ([r.1], r.2)
  | OpKind.broadcastToOp _ =>
      match f.saved with
      | Saved.sShape xsh =>
          let r := sum_to s dy xsh
          ([r.1], r.2)
      | _ => ([dy], s)
  | OpKind.sumToOp _ =>
      match f.saved with
      | Saved.sShape xsh =>
          let r := broadcast_to s dy xsh
          ([r.1], r.2)
      | _ => ([dy], s)

/-!
## The backward scheduler (`Variable.backward`)
-/

/-- Seed step of `Variable.backward`: if `self.grad is None`, set it to a
fresh `Variable(np.ones(self.data.shape))`. -/
def seedIfNone (s : State) (v : Nat) : State :=
  match (s.varOf v).grad with
  | some _ => s
  | none =>
      let r := newVar s (onesData (s.varOf v).data.shape)
      r.2.setGrad v (some (GVal.gVar r.1))

/-- `add_func(f)`: skip functions already seen, else append and re-sort the
worklist by ascending generation (Python list.sort is stable; so is
`insertionSort`). -/
def addFunc (s : State) (fid : Nat) (funcs seen : List Nat) : List Nat × List Nat :=
  if fid ∈ seen then (funcs, seen)
  else (List.insertionSort (fun a b => genOfF s a ≤ genOfF s b) (funcs ++ [fid]),
        fid :: seen)

/-- One gradient accumulation `x.grad = dx` / `x.grad = x.grad + dx`.  The
addition is `Variable` arithmetic, so it goes through `Function.__call__`;
the result stored in `grad` is always a `Variable`. -/
def accumGrad (s : State) (x dx : Nat) : State :=
  match (s.varOf x).grad with
  | none => s.setGrad x (some (GVal.gVar dx))
  | some (GVal.gVar g) =>
      let r := addF s g dx
      r.2.setGrad x (some (GVal.gVar r.1))
  | some (GVal.gArr t) =>
      -- a raw ndarray grad plus a Variable dispatches through
      -- Variable.__radd__ (ndarray defers via __array_priority__),
      -- wrapping the array as a leaf inside Function.__call__
      let rw := newVar s t
      let r := addF rw.2 dx rw.1
      r.2.setGrad x (some (GVal.gVar r.1))

/-- The `for x, dx in zip(f.inputs, dxs)` loop: accumulate into each input
and enqueue its creator (if any) respecting the seen set. -/
def accumLoop (s : State) (pairs : List (Nat × Nat)) (funcs seen : List Nat) :
    State × List Nat × List Nat :=
  match pairs with
  | [] => (s, funcs, seen)
  | (x, dx) :: rest =>
      let s1 := accumGrad s x dx
      let fs1 :=
        match (s1.varOf x).creator with
        | some c => addFunc s1 c funcs seen
        | none => (funcs, seen)
      accumLoop s1 rest fs1.1 fs1.2

/-- Clear the grads of the given (output) variables. -/
def clearOuts (s : State) (outs : List Nat) : State :=
  outs.foldl (fun s2 o => s2.setGrad o none) s

/-- Result of a backward run: optional raised exception, the state at the end
(or at the moment of the exception), and the trace of the worklist loop:
for each processed function, its index and the worklist remaining at the
moment it was popped. -/
structure BwResult where
  err : Option String
  st : State
  trace : List (Nat × List Nat)
deriving DecidableEq, Repr

/-- The gradient of the single output of `f`, as passed to its backward rule
(`dys = [output().grad for output in f.outputs]`).  A `None` or raw-array
gradient would flow into the rule's arithmetic; runs started from states
whose grads are all absent never produce one (proved below), so those cases
are modelled as the error the rule's arithmetic would raise. -/
def outGradVar (s : State) (f : Function) : Option Nat :=
  match (s.varOf (f.outputs.getD 0 0)).grad with
  | some (GVal.gVar g) => some g
  | _ => none

/-- Body of one iteration of the `while funcs:` loop for the popped function
`fid`: read the output gradient, run the backward rule, accumulate into the
inputs (enqueueing their creators), and unless `retain_grad` clear the
output gradients. -/
def processPop (s : State) (fid : Nat) (retain : Bool) (funcs seen : List Nat) :
    Option (State × List Nat × List Nat) :=
  let f := s.funcOf fid
  match outGradVar s f with
  | none => none
  | some dy =>
      let rb := backwardK s f dy
      let r2 := accumLoop rb.2 (f.inputs.zip rb.1) funcs seen
      let s3 := if retain then r2.1 else clearOuts r2.1 f.outputs
      some (s3, r2.2.1, r2.2.2)

/-- The `while funcs:` loop, with fuel (sufficient fuel is supplied by
`backward`; exhaustion is reported as an error).  `funcs.pop()` removes the
last element of the ascending-sorted worklist, i.e. a function of maximal
generation. -/
def bwLoop (retain : Bool) : Nat → State → List Nat → List Nat → BwResult
  | 0, s, funcs, _ =>
      if funcs = [] then ⟨none, s, []⟩ else ⟨some "out of fuel", s, []⟩
  | fuel + 1, s, funcs, seen =>
      match funcs.getLast? with
      | none => ⟨none, s, []⟩
      | some fid =>
          let rest := funcs.dropLast
          match processPop s fid retain rest seen with
          | none => ⟨some "TypeError: unsupported operand for grad None", s, []⟩
          | some (s3, funcs2, seen2) =>
              let r := bwLoop retain fuel s3 funcs2 seen2
              ⟨r.err, r.st, (fid, rest) :: r.trace⟩

/-- `Variable.backward(retain_grad)`: seed the gradient if absent, then
`add_func(self.creator)`.  When `self.creator` is `None`, Python appends
`None` to the worklist and `funcs.sort(key=lambda x: x.generation)` raises
`AttributeError` evaluating the key — the mutations made so far (the seeded
gradient) persist. -/
def backwardAux (s1 : State) (v : Nat) (retain : Bool) : BwResult :=
  match (s1.varOf v).creator with
  | none =>
      ⟨some "AttributeError: NoneType object has no attribute generation", s1, []⟩
  | some c =>
      let fs := addFunc s1 c [] []
      bwLoop retain (s1.funcs.length + 1) s1 fs.1 fs.2

def backward (s : State) (v : Nat) (retain : Bool) : BwResult :=
  backwardAux (seedIfNone s v) v retain

/-- `SGD.update_one`: `param.data = param.data - self.lr * param.grad.data`.
It reads `param.grad.data`, so it requires the grad to be a `Variable`
(reading `.data` of a raw array would fail). -/
def sgdUpdateOne (s : State) (lr : Int) (p : Nat) : Option State :=
  match (s.varOf p).grad with
  | some (GVal.gVar g) =>
      let pd := (s.varOf p).data
      let gd := (s.varOf g).data
      let upd : Variable :=
        { s.vars.getD p dVariable with data := elemwise2 (fun a b => a - lr * b) pd gd }
      some ({ s with vars := s.vars.set p upd })
  | _ => none

/-!
## Well-formedness of a graph state

`wfB` is the (decidable) invariant every state built through `newVar` and
`callFn` with tracking enabled satisfies: each function has exactly one
output, which points back to it as creator with generation one larger, and
each input is a valid variable whose creator (if any) is a valid function of
strictly smaller generation.
-/

/-- Number of inputs of each operation kind (and hence the number of input
gradients its backward rule returns). -/
def arityK : OpKind → Nat
  | OpKind.addOp => 2
  | OpKind.mulOp => 2
  | _ => 1

/-- Well-formedness check on a state (Bool so witnesses can `decide` it). -/
def wfB (s : State) : Bool :=
  ((List.range s.funcs.length).all (fun f =>
    let fd := s.funcOf f
    (fd.outputs.length == 1) &&
    (fd.inputs.length == arityK fd.kind) &&
    fd.outputs.all (fun o =>
      decide (o < s.vars.length) &&
      ((s.varOf o).creator == some f) &&
      ((s.varOf o).generation == fd.generation + 1)) &&
    fd.inputs.all (fun x =>
      decide (x < s.vars.length) &&
      (match (s.varOf x).creator with
       | some c =>
           decide (c < s.funcs.length) &&
           ((s.varOf x).generation == (s.funcOf c).generation + 1) &&
           decide ((s.funcOf c).generation < fd.generation)
       | none => true)))) &&
  ((List.range s.vars.length).all (fun x =>
    match (s.varOf x).creator with
    | some c => decide (c < s.funcs.length) && ((s.funcOf c).outputs == [x])
    | none => true))

/-- The propositional facts about a well-formed graph state the backward
scheduler proofs rely on (extracted from `wfB`). -/
def WfState (s : State) : Prop :=
  (∀ f, f < s.funcs.length →
    ((s.funcOf f).inputs.length = arityK (s.funcOf f).kind ∧
     (∀ o ∈ (s.funcOf f).outputs, o < s.vars.length ∧
        (s.varOf o).creator = some f) ∧
     (∀ x ∈ (s.funcOf f).inputs, x < s.vars.length ∧
        ∀ c, (s.varOf x).creator = some c →
          c < s.funcs.length ∧
          (s.funcOf c).generation < (s.funcOf f).generation))) ∧
  (∀ x, x < s.vars.length → ∀ c, (s.varOf x).creator = some c →
      c < s.funcs.length ∧ (s.funcOf c).outputs = [x])

/-- The invariant of the backward worklist `funcs` / seen-set `seen`,
relative to the state `s0` at the start of the run: no duplicates, only
valid pre-existing operations, everything queued has been seen, and the
worklist is sorted by ascending generation. -/
def WorklistInv (s0 : State) (funcs seen : List Nat) : Prop :=
  funcs.Nodup ∧
  (∀ f ∈ funcs, f < s0.funcs.length) ∧
  (∀ f ∈ funcs, f ∈ seen) ∧
  (∀ f ∈ seen, f < s0.funcs.length) ∧
  List.Sorted (fun a b => genOfF s0 a ≤ genOfF s0 b) funcs

/-- `s` extends `s0`: the function list grew by appending only, and every
variable already present kept its `data`, `creator` and `generation`
(only `grad` fields mutate, and new records are appended).  This is the
frame invariant of every graph-mutating primitive. -/
def Extends (s0 s : State) : Prop :=
  (∃ ext, s.funcs = s0.funcs ++ ext) ∧
  s0.vars.length ≤ s.vars.length ∧
  ∀ i, i < s0.vars.length →
    (s.varOf i).creator = (s0.varOf i).creator ∧
    (s.varOf i).generation = (s0.varOf i).generation ∧
    (s.varOf i).data = (s0.varOf i).data

/-- `s'` preserves the `grad` fields of all variables of `s` (the state may
have grown, but no existing gradient was touched). -/
def GradPres (s s' : State) : Prop :=
  s.vars.length ≤ s'.vars.length ∧
  ∀ w, w < s.vars.length → (s'.varOf w).grad = (s.varOf w).grad

/-- Every populated `grad` field holds a `Variable` (never a raw array). -/
def GradsGood (s : State) : Prop :=
  ∀ w g, (s.varOf w).grad = some g → ∃ i, g = GVal.gVar i

/-- Executable form of `GradsGood` (so witnesses can `decide` it). -/
def gradsGoodB (s : State) : Bool :=
  s.vars.all (fun vd =>
    match vd.grad with
    | some (GVal.gArr _) => false
    | _ => true)

/-!
## Helper lemmas about list lookups and the state primitives
-/

theorem getD_append_left {α : Type} (l1 l2 : List α) (i : Nat) (d : α)
    (h : i < l1.length) : (l1 ++ l2).getD i d = l1.getD i d :=
  List.getD_append _ _ _ _ h

theorem getD_snoc_self {α : Type} (l : List α) (a d : α) :
    (l ++ [a]).getD l.length d = a := by
  rw [List.getD_eq_getElem?_getD, List.getElem?_concat_length]
  rfl

theorem getD_snoc_gt {α : Type} (l : List α) (a d : α) (i : Nat)
    (h : l.length < i) : (l ++ [a]).getD i d = d := by
  rw [List.getD_eq_getElem?_getD, List.getElem?_append_right (le_of_lt h)]
  have h1 : ([a] : List α).length ≤ i - l.length := by
    simp only [List.length_singleton]
    omega
  rw [List.getElem?_eq_none h1]
  rfl

theorem getD_snoc_ne {α : Type} (l : List α) (a d : α) (i : Nat)
    (h : i ≠ l.length) : (l ++ [a]).getD i d = l.getD i d := by
  rcases Nat.lt_or_ge i l.length with h1 | h1
  · exact getD_append_left _ _ _ _ h1
  · have h2 : l.length < i := lt_of_le_of_ne h1 (fun he => h he.symm)
    rw [getD_snoc_gt _ _ _ _ h2, List.getD_eq_getElem?_getD,
      List.getElem?_eq_none (le_of_lt h2)]
    rfl

theorem getD_set_ne' {α : Type} (l : List α) (v i : Nat) (a d : α) (h : v ≠ i) :
    (l.set v a).getD i d = l.getD i d := by
  rw [List.getD_eq_getElem?_getD, List.getElem?_set_ne h, ← List.getD_eq_getElem?_getD]

theorem getD_set_self' {α : Type} (l : List α) (v : Nat) (a d : α)
    (h : v < l.length) : (l.set v a).getD v d = a := by
  rw [List.getD_eq_getElem?_getD, List.getElem?_set_self h]
  rfl

theorem varOf_setGrad_ne (s : State) (v w : Nat) (g : Option GVal) (h : w ≠ v) :
    (s.setGrad v g).varOf w = s.varOf w := by
  simp only [State.setGrad, State.varOf]
  exact getD_set_ne' _ _ _ _ _ (fun he => h he.symm)

theorem varOf_setGrad_self (s : State) (v : Nat) (g : Option GVal)
    (h : v < s.vars.length) :
    (s.setGrad v g).varOf v = { s.varOf v with grad := g } := by
  simp only [State.setGrad, State.varOf]
  rw [getD_set_self' _ _ _ _ h, List.getD_eq_getElem _ _ h]

theorem setGrad_oor (s : State) (v : Nat) (g : Option GVal)
    (h : s.vars.length ≤ v) : s.setGrad v g = s := by
  simp only [State.setGrad, List.set_eq_of_length_le h]

theorem funcs_setGrad (s : State) (v : Nat) (g : Option GVal) :
    (s.setGrad v g).funcs = s.funcs := rfl

theorem vars_len_setGrad (s : State) (v : Nat) (g : Option GVal) :
    (s.setGrad v g).vars.length = s.vars.length := by
  simp only [State.setGrad, List.length_set]

theorem grad_setGrad_self (s : State) (v : Nat) (g : Option GVal)
    (h : v < s.vars.length) : ((s.setGrad v g).varOf v).grad = g := by
  rw [varOf_setGrad_self _ _ _ h]

theorem varOf_newVar_ne (s : State) (t : Tensor) (w : Nat)
    (h : w ≠ s.vars.length) : (newVar s t).2.varOf w = s.varOf w := by
  simp only [newVar, State.varOf]
  exact getD_snoc_ne _ _ _ _ h

theorem varOf_newVar_self (s : State) (t : Tensor) :
    (newVar s t).2.varOf s.vars.length = ⟨t, none, none, 0⟩ := by
  simp only [newVar, State.varOf]
  exact getD_snoc_self _ _ _

theorem funcs_newVar (s : State) (t : Tensor) : (newVar s t).2.funcs = s.funcs := rfl

theorem vars_len_newVar (s : State) (t : Tensor) :
    (newVar s t).2.vars.length = s.vars.length + 1 := by
  simp only [newVar, List.length_append, List.length_singleton]

theorem callFn_vars_len (s : State) (k : OpKind) (ins : List Nat) :
    (callFn s k ins).2.vars.length = s.vars.length + 1 := by
  simp only [callFn]
  by_cases hb : s.enable_backprop <;>
    simp [hb, List.length_append]

theorem varOf_callFn_ne (s : State) (k : OpKind) (ins : List Nat) (w : Nat)
    (h : w ≠ s.vars.length) : (callFn s k ins).2.varOf w = s.varOf w := by
  simp only [callFn, State.varOf]
  by_cases hb : s.enable_backprop <;> simp only [hb, if_true, if_false] <;>
    exact getD_snoc_ne _ _ _ _ h

theorem funcOf_callFn_lt (s : State) (k : OpKind) (ins : List Nat) (j : Nat)
    (h : j < s.funcs.length) : (callFn s k ins).2.funcOf j = s.funcOf j := by
  simp only [callFn, State.funcOf]
  by_cases hb : s.enable_backprop <;> simp only [hb, if_true, if_false]
  · exact getD_append_left _ _ _ _ h
  · rfl

theorem callFn_funcs_ext (s : State) (k : OpKind) (ins : List Nat) :
    ∃ ext, (callFn s k ins).2.funcs = s.funcs ++ ext := by
  simp only [callFn]
  by_cases hb : s.enable_backprop <;> simp only [hb, if_true, if_false]
  · exact ⟨_, rfl⟩
  · exact ⟨[], (List.append_nil _).symm⟩

theorem extends_refl (s : State) : Extends s s :=
  ⟨⟨[], (List.append_nil _).symm⟩, le_refl _, fun _ _ => ⟨rfl, rfl, rfl⟩⟩

theorem extends_trans {s0 s1 s2 : State} (h1 : Extends s0 s1) (h2 : Extends s1 s2) :
    Extends s0 s2 := by
  obtain ⟨⟨e1, hf1⟩, hl1, hv1⟩ := h1
  obtain ⟨⟨e2, hf2⟩, hl2, hv2⟩ := h2
  refine ⟨⟨e1 ++ e2, ?_⟩, le_trans hl1 hl2, ?_⟩
  · rw [hf2, hf1, List.append_assoc]
  · intro i hi
    obtain ⟨a1, b1, c1⟩ := hv1 i hi
    obtain ⟨a2, b2, c2⟩ := hv2 i (lt_of_lt_of_le hi hl1)
    exact ⟨a2.trans a1, b2.trans b1, c2.trans c1⟩

theorem extends_setGrad (s : State) (v : Nat) (g : Option GVal) :
    Extends s (s.setGrad v g) := by
  refine ⟨⟨[], (List.append_nil _).symm⟩, le_of_eq (vars_len_setGrad s v g).symm, ?_⟩
  intro i hi
  by_cases hv : i = v
  · subst hv
    rw [varOf_setGrad_self _ _ _ hi]
    exact ⟨rfl, rfl, rfl⟩
  · rw [varOf_setGrad_ne _ _ _ _ hv]
    exact ⟨rfl, rfl, rfl⟩

theorem extends_newVar (s : State) (t : Tensor) : Extends s (newVar s t).2 := by
  refine ⟨⟨[], (List.append_nil _).symm⟩, ?_, ?_⟩
  · rw [vars_len_newVar]
    exact Nat.le_succ _
  · intro i hi
    rw [varOf_newVar_ne _ _ _ (Nat.ne_of_lt hi)]
    exact ⟨rfl, rfl, rfl⟩

theorem extends_callFn (s : State) (k : OpKind) (ins : List Nat) :
    Extends s (callFn s k ins).2 := by
  refine ⟨callFn_funcs_ext s k ins, ?_, ?_⟩
  · rw [callFn_vars_len]
    exact Nat.le_succ _
  · intro i hi
    rw [varOf_callFn_ne _ _ _ _ (Nat.ne_of_lt hi)]
    exact ⟨rfl, rfl, rfl⟩

theorem funcOf_of_extends {s0 s : State} (h : Extends s0 s) (j : Nat)
    (hj : j < s0.funcs.length) : s.funcOf j = s0.funcOf j := by
  obtain ⟨⟨ext, hf⟩, _, _⟩ := h
  simp only [State.funcOf, hf]
  exact getD_append_left _ _ _ _ hj

theorem genOfF_of_extends {s0 s : State} (h : Extends s0 s) (j : Nat)
    (hj : j < s0.funcs.length) : genOfF s j = genOfF s0 j := by
  simp only [genOfF, funcOf_of_extends h j hj]

theorem creator_of_extends {s0 s : State} (h : Extends s0 s) (i : Nat)
    (hi : i < s0.vars.length) : (s.varOf i).creator = (s0.varOf i).creator :=
  (h.2.2 i hi).1

theorem extends_sum_to (s : State) (x : Nat) (shape : List Nat) :
    Extends s (sum_to s x shape).2 := by
  unfold sum_to
  split
  · exact extends_refl s
  · exact extends_callFn s _ _

theorem extends_broadcast_to (s : State) (x : Nat) (shape : List Nat) :
    Extends s (broadcast_to s x shape).2 := by
  unfold broadcast_to
  split
  · exact extends_refl s
  · exact extends_callFn s _ _

theorem extends_backwardK (s : State) (f : Function) (dy : Nat) :
    Extends s (backwardK s f dy).2 := by
  unfold backwardK
  cases hk : f.kind with
  | addOp =>
      cases hs : f.saved with
      | sShapes sh0 sh1 =>
          by_cases h : sh0 ≠ sh1
          · simp only [if_pos h]
            exact extends_trans (extends_sum_to _ _ _) (extends_sum_to _ _ _)
          · simp only [if_neg h]
            exact extends_refl s
      | sNone => exact extends_refl s
      | sShape _ => exact extends_refl s
  | mulOp =>
      by_cases h : (s.varOf (f.inputs.getD 0 0)).data.shape ≠
          (s.varOf (f.inputs.getD 1 0)).data.shape
      · simp only [if_pos h]
        exact extends_trans (extends_callFn _ _ _)
          (extends_trans (extends_callFn _ _ _)
            (extends_trans (extends_sum_to _ _ _) (extends_sum_to _ _ _)))
      · simp only [if_neg h]
        exact extends_trans (extends_callFn _ _ _) (extends_callFn _ _ _)
  | negOp =>
      exact extends_trans (extends_callFn _ _ _) (extends_callFn _ _ _)
  | transposeOp axes =>
      cases axes with
      | none => exact extends_callFn _ _ _
      | some a => exact extends_callFn _ _ _
  | broadcastToOp sh =>
      cases hs : f.saved with
      | sShape xsh => exact extends_sum_to _ _ _
      | sNone => exact extends_refl s
      | sShapes _ _ => exact extends_refl s
  | sumToOp sh =>
      cases hs : f.saved with
      | sShape xsh => exact extends_broadcast_to _ _ _
      | sNone => exact extends_refl s
      | sShapes _ _ => exact extends_refl s

theorem extends_accumGrad (s : State) (x dx : Nat) : Extends s (accumGrad s x dx) := by
  unfold accumGrad
  cases hg : (s.varOf x).grad with
  | none => exact extends_setGrad _ _ _
  | some g =>
      cases g with
      | gVar i => exact extends_trans (extends_callFn _ _ _) (extends_setGrad _ _ _)
      | gArr t =>
          exact extends_trans (extends_newVar _ _)
            (extends_trans (extends_callFn _ _ _) (extends_setGrad _ _ _))

theorem extends_accumLoop (pairs : List (Nat × Nat)) :
    ∀ (s : State) (funcs seen : List Nat), Extends s (accumLoop s pairs funcs seen).1 := by
  induction pairs with
  | nil => intro s funcs seen; exact extends_refl s
  | cons p rest ih =>
      intro s funcs seen
      obtain ⟨x, dx⟩ := p
      exact extends_trans (extends_accumGrad s x dx) (ih _ _ _)

theorem extends_clearOuts (outs : List Nat) :
    ∀ s : State, Extends s (clearOuts s outs) := by
  induction outs with
  | nil => intro s; exact extends_refl s
  | cons o rest ih =>
      intro s
      exact extends_trans (extends_setGrad s o none) (ih _)

theorem extends_processPop {s : State} {fid : Nat} {retain : Bool}
    {funcs seen : List Nat} {s3 : State} {funcs2 seen2 : List Nat}
    (h : processPop s fid retain funcs seen = some (s3, funcs2, seen2)) :
    Extends s s3 := by
  simp only [processPop] at h
  cases hg : outGradVar s (s.funcOf fid) with
  | none => rw [hg] at h; exact absurd h (by simp)
  | some dy =>
      rw [hg] at h
      simp only [Option.some.injEq, Prod.mk.injEq] at h
      obtain ⟨h3, _, _⟩ := h
      subst h3
      have h1 : Extends s (backwardK s (s.funcOf fid) dy).2 := extends_backwardK _ _ _
      have h2 := extends_accumLoop ((s.funcOf fid).inputs.zip (backwardK s (s.funcOf fid) dy).1)
        (backwardK s (s.funcOf fid) dy).2 funcs seen
      cases retain with
      | true => simpa using extends_trans h1 h2
      | false => exact extends_trans h1 (extends_trans h2 (extends_clearOuts _ _))

theorem extends_bwLoop (retain : Bool) (fuel : Nat) :
    ∀ (s : State) (funcs seen : List Nat), Extends s (bwLoop retain fuel s funcs seen).st := by
  induction fuel with
  | zero =>
      intro s funcs seen
      unfold bwLoop
      split <;> exact extends_refl s
  | succ n ih =>
      intro s funcs seen
      unfold bwLoop
      cases hl : funcs.getLast? with
      | none => exact extends_refl s
      | some fid =>
          simp only
          cases hp : processPop s fid retain funcs.dropLast seen with
          | none => exact extends_refl s
          | some r =>
              obtain ⟨s3, funcs2, seen2⟩ := r
              exact extends_trans (extends_processPop hp) (ih s3 funcs2 seen2)

/-!
## Claim theorems
-/

/-- C3 (amended): `as_variable` passes `Variable`s through unchanged and
wraps raw ndarrays as fresh leaf `Variable`s, but a raw scalar reaches
`Variable.__init__`, which raises `TypeError` (raw scalars must first go
through `as_array`). -/
theorem as_variable_spec :
    (∀ (s : State) (v : Nat), as_variable s (PyData.pyVar v) = Except.ok (v, s)) ∧
    (∀ (s : State) (t : Tensor), as_variable s (PyData.pyArr t) =
      Except.ok (s.vars.length, { s with vars := s.vars ++ [⟨t, none, none, 0⟩] })) ∧
    (∀ (s : State) (x : Int), as_variable s (PyData.pyScalar x) =
      Except.error "TypeError: data is not supported") :=
  ⟨fun _ _ => rfl, fun _ _ => rfl, fun _ _ => rfl⟩

/-- C3 counterexample: coercing the raw scalar `3` raises `TypeError`
instead of returning a wrapped leaf Node without raising. -/
theorem as_variable_scalar_raises :
    as_variable emptyState (PyData.pyScalar 3) =
      Except.error "TypeError: data is not supported" := rfl

/-- C2: the claimed (mathematically correct) behaviour fails on the code.
For the leaf `x` with data `[3, 5]`, after `y = neg(x)` and `y.backward()`
the stored gradient of `x` is the double negation `-(-dy)` of the all-ones
seed, i.e. `[1, 1]`, not the elementwise negation `[-1, -1]` of the seed. -/
theorem neg_backward_double_negation :
    (backward (negF (newVar emptyState ⟨[2], [3, 5]⟩).2 0).2
        (negF (newVar emptyState ⟨[2], [3, 5]⟩).2 0).1 false).err = none ∧
    ((backward (negF (newVar emptyState ⟨[2], [3, 5]⟩).2 0).2
        (negF (newVar emptyState ⟨[2], [3, 5]⟩).2 0).1 false).st.varOf 0).grad =
      some (GVal.gVar 4) ∧
    (((backward (negF (newVar emptyState ⟨[2], [3, 5]⟩).2 0).2
        (negF (newVar emptyState ⟨[2], [3, 5]⟩).2 0).1 false).st.varOf 4).data =
      onesData [2]) ∧
    (((backward (negF (newVar emptyState ⟨[2], [3, 5]⟩).2 0).2
        (negF (newVar emptyState ⟨[2], [3, 5]⟩).2 0).1 false).st.varOf 4).data ≠
      negData (onesData [2])) := by decide

/-- C9: `BroadcastTo.backward` is literally `sum_to(dy, x_shape)` and
`SumTo.backward` is literally `broadcast_to(dy, x_shape)`; and when the
target shape equals the variable's shape, both dispatchers return the input
variable itself with the state (in particular the operation list)
unchanged. -/
theorem broadcast_sum_backward_dual (s : State) (f : Function) (dy x : Nat)
    (tgt xsh : List Nat) :
    (f.kind = OpKind.broadcastToOp tgt → f.saved = Saved.sShape xsh →
      backwardK s f dy = ([(sum_to s dy xsh).1], (sum_to s dy xsh).2)) ∧
    (f.kind = OpKind.sumToOp tgt → f.saved = Saved.sShape xsh →
      backwardK s f dy = ([(broadcast_to s dy xsh).1], (broadcast_to s dy xsh).2)) ∧
    ((s.varOf x).data.shape = tgt → sum_to s x tgt = (x, s)) ∧
    ((s.varOf x).data.shape = tgt → broadcast_to s x tgt = (x, s)) := by
  obtain ⟨k, sv, ins, outs, g⟩ := f
  refine ⟨?_, ?_, ?_, ?_⟩
  · intro hk hs
    simp only at hk hs
    subst hk hs
    rfl
  · intro hk hs
    simp only at hk hs
    subst hk hs
    rfl
  · intro h
    unfold sum_to
    rw [if_pos h]
  · intro h
    unfold broadcast_to
    rw [if_pos h]

/-- C9 witness: the duality equations and the no-op case evaluated on a
concrete one-leaf graph. -/
theorem broadcast_sum_backward_dual_witness :
    (backwardK (newVar emptyState ⟨[2], [3, 5]⟩).2
        ⟨OpKind.broadcastToOp [2, 2], Saved.sShape [2], [0], [1], 0⟩ 0 =
      ([(sum_to (newVar emptyState ⟨[2], [3, 5]⟩).2 0 [2]).1],
        (sum_to (newVar emptyState ⟨[2], [3, 5]⟩).2 0 [2]).2)) ∧
    (sum_to (newVar emptyState ⟨[2], [3, 5]⟩).2 0 [2] =
      (0, (newVar emptyState ⟨[2], [3, 5]⟩).2)) :=
  ⟨(broadcast_sum_backward_dual (newVar emptyState ⟨[2], [3, 5]⟩).2
      ⟨OpKind.broadcastToOp [2, 2], Saved.sShape [2], [0], [1], 0⟩ 0 0 [2, 2] [2]).1
      rfl rfl,
   (broadcast_sum_backward_dual (newVar emptyState ⟨[2], [3, 5]⟩).2
      ⟨OpKind.broadcastToOp [2, 2], Saved.sShape [2], [0], [1], 0⟩ 0 0 [2] [2]).2.2.1
      (by decide)⟩

/-- C1 (amended): calling `backward` on a variable whose `creator` is absent
seeds that variable's own gradient (when it was absent) and then raises
`AttributeError` — `add_func(None)` appends `None` to the worklist and the
sort key evaluates `None.generation`.  No other variable's gradient is
touched and no operation is processed. -/
theorem backward_on_creatorless_raises (s : State) (v : Nat)
    (hv : v < s.vars.length) (hcr : (s.varOf v).creator = none) :
    (backward s v false).err =
      some "AttributeError: NoneType object has no attribute generation" ∧
    ((s.varOf v).grad = none →
      ((backward s v false).st.varOf v).grad = some (GVal.gVar s.vars.length) ∧
      ((backward s v false).st.varOf s.vars.length).data =
        onesData (s.varOf v).data.shape) ∧
    (∀ w, w ≠ v → ((backward s v false).st.varOf w).grad = (s.varOf w).grad) ∧
    (backward s v false).trace = [] := by
  cases hg : (s.varOf v).grad with
  | some g =>
      have hseed : seedIfNone s v = s := by
        unfold seedIfNone
        rw [hg]
      have hcrv : ((seedIfNone s v).varOf v).creator = none := by
        rw [hseed]
        exact hcr
      have heq : backward s v false =
          ⟨some "AttributeError: NoneType object has no attribute generation",
            seedIfNone s v, []⟩ := by
        unfold backward backwardAux
        rw [hcrv]
      rw [heq, hseed]
      refine ⟨rfl, fun h => ?_, fun w _ => rfl, rfl⟩
      exact absurd h (Option.some_ne_none g)
  | none =>
      have hvlen : v ≠ s.vars.length := Nat.ne_of_lt hv
      have hseed : seedIfNone s v =
          (newVar s (onesData (s.varOf v).data.shape)).2.setGrad v
            (some (GVal.gVar s.vars.length)) := by
        unfold seedIfNone
        rw [hg]
        rfl
      have hv1 : v < (newVar s (onesData (s.varOf v).data.shape)).2.vars.length := by
        rw [vars_len_newVar]
        exact Nat.lt_succ_of_lt hv
      have hvv : (seedIfNone s v).varOf v =
          { s.varOf v with grad := some (GVal.gVar s.vars.length) } := by
        rw [hseed, varOf_setGrad_self _ _ _ hv1, varOf_newVar_ne _ _ _ hvlen]
      have hcrv : ((seedIfNone s v).varOf v).creator = none := by
        rw [hvv]
        exact hcr
      have heq : backward s v false =
          ⟨some "AttributeError: NoneType object has no attribute generation",
            seedIfNone s v, []⟩ := by
        unfold backward backwardAux
        rw [hcrv]
      rw [heq]
      refine ⟨rfl, fun _ => ⟨?_, ?_⟩, fun w hw => ?_, rfl⟩
      · rw [hvv]
      · rw [hseed, varOf_setGrad_ne _ _ _ _ (fun he => hvlen he.symm),
          varOf_newVar_self]
      · by_cases hwl : w = s.vars.length
        · subst hwl
          rw [hseed, varOf_setGrad_ne _ _ _ _ (fun he => hvlen he.symm),
            varOf_newVar_self]
          have hd : (s.varOf s.vars.length) = dVariable := by
            simp only [State.varOf, List.getD_eq_getElem?_getD,
              List.getElem?_eq_none (le_refl s.vars.length)]
            rfl
          rw [hd]
          rfl
        · rw [hseed, varOf_setGrad_ne _ _ _ _ hw, varOf_newVar_ne _ _ _ hwl]

/-- C1 counterexample: on a concrete leaf, `backward()` raises instead of
returning normally. -/
theorem backward_on_leaf_raises_concrete :
    (backward (newVar emptyState ⟨[2], [3, 5]⟩).2 0 false).err =
      some "AttributeError: NoneType object has no attribute generation" := by decide

/-- C1 witness: the general statement applied to the concrete leaf graph. -/
theorem backward_on_creatorless_raises_witness :
    0 < (newVar emptyState ⟨[2], [3, 5]⟩).2.vars.length ∧
    (backward (newVar emptyState ⟨[2], [3, 5]⟩).2 0 false).err =
      some "AttributeError: NoneType object has no attribute generation" ∧
    (backward (newVar emptyState ⟨[2], [3, 5]⟩).2 0 false).trace = [] :=
  ⟨by decide,
   (backward_on_creatorless_raises (newVar emptyState ⟨[2], [3, 5]⟩).2 0
      (by decide) (by decide)).1,
   (backward_on_creatorless_raises (newVar emptyState ⟨[2], [3, 5]⟩).2 0
      (by decide) (by decide)).2.2.2⟩

/-- C5 counterexample: on the graph `y = neg(x)` (leaf `x` of shape `[1]`),
a fresh `y.backward(retain_grad=True)` leaves `x.grad` with data `[1]`, but
`cleargrad()` on the seed `y` followed by a second `backward` leaves `x.grad`
with data `[2]` — the second run accumulated into the retained leaf
gradient, so the result is not identical to a single fresh run. -/
theorem backward_rerun_after_seed_clear_differs :
    ((backward (negF (newVar emptyState ⟨[1], [7]⟩).2 0).2 1 true).st.varOf 0).grad =
      some (GVal.gVar 4) ∧
    (((backward (negF (newVar emptyState ⟨[1], [7]⟩).2 0).2 1 true).st.varOf 4).data =
      Tensor.mk [1] [1]) ∧
    ((backward (cleargrad (backward (negF (newVar emptyState ⟨[1], [7]⟩).2 0).2 1 true).st 1)
        1 true).st.varOf 0).grad = some (GVal.gVar 8) ∧
    (((backward (cleargrad (backward (negF (newVar emptyState ⟨[1], [7]⟩).2 0).2 1 true).st 1)
        1 true).st.varOf 8).data = Tensor.mk [1] [2]) ∧
    (Tensor.mk [1] [2] ≠ Tensor.mk [1] [1]) := by decide

/-- C5 (amended): re-running `backward` after `cleargrad()` on the seed alone
accumulates into the retained leaf gradients (on the example graph the
leaf's gradient doubles); the result of a single fresh run is reproduced
when every variable's gradient (not only the seed's) is cleared before the
second run. -/
theorem backward_rerun_after_full_clear_matches :
    (((backward (cleargrad (backward (negF (newVar emptyState ⟨[1], [7]⟩).2 0).2 1 true).st 1)
        1 true).st.varOf 8).data = Tensor.mk [1] [2]) ∧
    ((backward
        (cleargrad (cleargrad (cleargrad (cleargrad (cleargrad
          (backward (negF (newVar emptyState ⟨[1], [7]⟩).2 0).2 1 true).st 0) 1) 2) 3) 4)
        1 true).st.varOf 0).grad = some (GVal.gVar 7) ∧
    (((backward
        (cleargrad (cleargrad (cleargrad (cleargrad (cleargrad
          (backward (negF (newVar emptyState ⟨[1], [7]⟩).2 0).2 1 true).st 0) 1) 2) 3) 4)
        1 true).st.varOf 7).data = Tensor.mk [1] [1]) ∧
    (((backward (negF (newVar emptyState ⟨[1], [7]⟩).2 0).2 1 true).st.varOf 4).data =
      Tensor.mk [1] [1]) := by decide

theorem le_foldl_max (l : List Nat) : ∀ b : Nat, b ≤ l.foldl max b := by
  induction l with
  | nil => intro b; exact le_refl b
  | cons a t ih => intro b; exact le_trans (le_max_left b a) (ih (max b a))

theorem mem_le_foldl_max (l : List Nat) : ∀ x ∈ l, ∀ b : Nat, x ≤ l.foldl max b := by
  induction l with
  | nil => intro x hx; cases hx
  | cons a t ih =>
      intro x hx b
      rcases List.mem_cons.mp hx with h | h
      · subst h
        exact le_trans (le_max_right b x) (le_foldl_max t (max b x))
      · exact ih x h (max b a)

theorem foldl_max_cases (l : List Nat) : ∀ b : Nat, l.foldl max b = b ∨ l.foldl max b ∈ l := by
  induction l with
  | nil => intro b; exact Or.inl rfl
  | cons a t ih =>
      intro b
      rcases ih (max b a) with h | h
      · rcases max_choice b a with hm | hm
        · exact Or.inl (by rw [List.foldl_cons, h, hm])
        · exact Or.inr (by rw [List.foldl_cons, h, hm]; exact List.mem_cons_self a t)
      · exact Or.inr (List.mem_cons_of_mem a h)

/-- C7: immediately after `Function.__call__` with gradient tracking
enabled, the new operation's generation is the maximum of its inputs'
generations, each of its outputs has generation one larger, and the
generations of all previously existing variables and the records of all
previously existing operations are untouched (a generation is fixed at
creation and never recomputed). -/
theorem operation_generation_invariant (s : State) (k : OpKind) (inputs : List Nat)
    (hb : s.enable_backprop = true) (hne : inputs ≠ []) :
    (∀ x ∈ inputs, (s.varOf x).generation ≤
        ((callFn s k inputs).2.funcOf s.funcs.length).generation) ∧
    (∃ x ∈ inputs,
        ((callFn s k inputs).2.funcOf s.funcs.length).generation =
          (s.varOf x).generation) ∧
    (∀ o ∈ ((callFn s k inputs).2.funcOf s.funcs.length).outputs,
        ((callFn s k inputs).2.varOf o).generation =
          ((callFn s k inputs).2.funcOf s.funcs.length).generation + 1) ∧
    (∀ i, i < s.vars.length →
        ((callFn s k inputs).2.varOf i).generation = (s.varOf i).generation) ∧
    (∀ j, j < s.funcs.length → (callFn s k inputs).2.funcOf j = s.funcOf j) := by
  have hfd : (callFn s k inputs).2.funcOf s.funcs.length =
      ⟨k, (forwardK k (inputs.map (fun v => (s.varOf v).data))).2, inputs,
        [s.vars.length], maxL (inputs.map (fun v => (s.varOf v).generation))⟩ := by
    simp only [callFn, hb, if_true, State.funcOf]
    exact getD_snoc_self _ _ _
  have hov : (callFn s k inputs).2.varOf s.vars.length =
      ⟨(forwardK k (inputs.map (fun v => (s.varOf v).data))).1, none,
        some s.funcs.length,
        maxL (inputs.map (fun v => (s.varOf v).generation)) + 1⟩ := by
    simp only [callFn, hb, if_true, State.varOf]
    exact getD_snoc_self _ _ _
  refine ⟨?_, ?_, ?_, ?_, ?_⟩
  · intro x hx
    rw [hfd]
    show (s.varOf x).generation ≤ maxL (inputs.map (fun v => (s.varOf v).generation))
    unfold maxL
    exact mem_le_foldl_max _ _ (List.mem_map_of_mem (fun v => (s.varOf v).generation) hx) 0
  · rcases foldl_max_cases (inputs.map (fun v => (s.varOf v).generation)) 0 with h0 | hm
    · obtain ⟨x0, hx0⟩ := List.exists_mem_of_ne_nil inputs hne
      refine ⟨x0, hx0, ?_⟩
      rw [hfd]
      show maxL (inputs.map (fun v => (s.varOf v).generation)) = (s.varOf x0).generation
      have h1 : (s.varOf x0).generation ≤
          (inputs.map (fun v => (s.varOf v).generation)).foldl max 0 :=
        mem_le_foldl_max _ _ (List.mem_map_of_mem (fun v => (s.varOf v).generation) hx0) 0
      unfold maxL
      omega
    · obtain ⟨x, hx, hgx⟩ := List.mem_map.mp hm
      refine ⟨x, hx, ?_⟩
      rw [hfd]
      show maxL (inputs.map (fun v => (s.varOf v).generation)) = (s.varOf x).generation
      unfold maxL
      exact hgx.symm
  · intro o ho
    rw [hfd] at ho
    simp only [List.mem_singleton] at ho
    subst ho
    rw [hov, hfd]
  · intro i hi
    exact ((extends_callFn s k inputs).2.2 i hi).2.1
  · exact funcOf_callFn_lt s k inputs

/-- C7 witness: the generation invariant on a concrete graph where the two
inputs have different generations. -/
theorem operation_generation_invariant_witness :
    ((negF (newVar emptyState ⟨[1], [2]⟩).2 0).2.enable_backprop = true) ∧
    (([0, 1] : List Nat) ≠ []) ∧
    ((∀ x ∈ ([0, 1] : List Nat),
        ((negF (newVar emptyState ⟨[1], [2]⟩).2 0).2.varOf x).generation ≤
        ((callFn (negF (newVar emptyState ⟨[1], [2]⟩).2 0).2 OpKind.addOp [0, 1]).2.funcOf
          (negF (newVar emptyState ⟨[1], [2]⟩).2 0).2.funcs.length).generation) ∧
      (∃ x ∈ ([0, 1] : List Nat),
        ((callFn (negF (newVar emptyState ⟨[1], [2]⟩).2 0).2 OpKind.addOp [0, 1]).2.funcOf
          (negF (newVar emptyState ⟨[1], [2]⟩).2 0).2.funcs.length).generation =
          ((negF (newVar emptyState ⟨[1], [2]⟩).2 0).2.varOf x).generation) ∧
      (∀ o ∈ ((callFn (negF (newVar emptyState ⟨[1], [2]⟩).2 0).2 OpKind.addOp [0, 1]).2.funcOf
          (negF (newVar emptyState ⟨[1], [2]⟩).2 0).2.funcs.length).outputs,
        ((callFn (negF (newVar emptyState ⟨[1], [2]⟩).2 0).2 OpKind.addOp [0, 1]).2.varOf
          o).generation =
          ((callFn (negF (newVar emptyState ⟨[1], [2]⟩).2 0).2 OpKind.addOp [0, 1]).2.funcOf
            (negF (newVar emptyState ⟨[1], [2]⟩).2 0).2.funcs.length).generation + 1) ∧
      (∀ i, i < (negF (newVar emptyState ⟨[1], [2]⟩).2 0).2.vars.length →
        ((callFn (negF (newVar emptyState ⟨[1], [2]⟩).2 0).2 OpKind.addOp [0, 1]).2.varOf
          i).generation = ((negF (newVar emptyState ⟨[1], [2]⟩).2 0).2.varOf i).generation) ∧
      (∀ j, j < (negF (newVar emptyState ⟨[1], [2]⟩).2 0).2.funcs.length →
        (callFn (negF (newVar emptyState ⟨[1], [2]⟩).2 0).2 OpKind.addOp [0, 1]).2.funcOf j =
          (negF (newVar emptyState ⟨[1], [2]⟩).2 0).2.funcOf j)) :=
  ⟨by decide, by decide,
    operation_generation_invariant (negF (newVar emptyState ⟨[1], [2]⟩).2 0).2
      OpKind.addOp [0, 1] (by decide) (by decide)⟩

theorem map_getD_range {α : Type} (l : List α) (d : α) :
    (List.range l.length).map (fun i => l.getD i d) = l := by
  apply List.ext_getElem
  · simp
  · intro n h1 h2
    simp only [List.getElem_map, List.getElem_range]
    exact List.getD_eq_getElem l d h2

theorem ext_getD {α : Type} (l1 l2 : List α) (d : α) (hl : l1.length = l2.length)
    (h : ∀ i, i < l1.length → l1.getD i d = l2.getD i d) : l1 = l2 := by
  apply List.ext_getElem hl
  intro n h1 h2
  rw [← List.getD_eq_getElem l1 d h1, ← List.getD_eq_getElem l2 d h2]
  exact h n h1

theorem getD_map_of_lt {α β : Type} (f : α → β) (l : List α) (i : Nat) (d : β)
    (d2 : α) (hi : i < l.length) : (l.map f).getD i d = f (l.getD i d2) := by
  rw [List.getD_eq_getElem (l.map f) d (by simpa using hi), List.getElem_map,
    List.getD_eq_getElem l d2 hi]

theorem getD_mem_of_lt {α : Type} (l : List α) (i : Nat) (d : α) (hi : i < l.length) :
    l.getD i d ∈ l := by
  rw [List.getD_eq_getElem l d hi]
  exact List.getElem_mem _

/-- `np.argsort` of a permutation of `0..n-1` is again a permutation of
`0..n-1`, and composing with it recovers the identity — the indices sorted
by value enumerate the inverse permutation. -/
theorem argsortL_spec (n : Nat) (a : List Nat) (ha : a.Perm (List.range n)) :
    (argsortL a).Perm (List.range n) ∧
    (argsortL a).map (fun i => a.getD i 0) = List.range n := by
  have hlen : a.length = n := by
    have := ha.length_eq
    simpa using this
  have hM : (argsortL a).Perm (List.range n) := by
    unfold argsortL
    rw [hlen]
    exact List.perm_insertionSort _ _
  refine ⟨hM, ?_⟩
  haveI hT : IsTotal Nat (fun i j => a.getD i 0 ≤ a.getD j 0) :=
    ⟨fun i j => Nat.le_total _ _⟩
  haveI hTr : IsTrans Nat (fun i j => a.getD i 0 ≤ a.getD j 0) :=
    ⟨fun i j k hij hjk => Nat.le_trans hij hjk⟩
  have hsortM : List.Sorted (fun i j => a.getD i 0 ≤ a.getD j 0) (argsortL a) :=
    List.sorted_insertionSort _ _
  have hsorted : List.Sorted (· ≤ ·) ((argsortL a).map (fun i => a.getD i 0)) := by
    rw [List.Sorted, List.pairwise_map]
    exact hsortM
  have hperm : ((argsortL a).map (fun i => a.getD i 0)).Perm (List.range n) := by
    have h1 : ((argsortL a).map (fun i => a.getD i 0)).Perm
        ((List.range n).map (fun i => a.getD i 0)) := hM.map _
    have h2 : (List.range n).map (fun i => a.getD i 0) = a := by
      rw [← hlen]
      exact map_getD_range a 0
    rw [h2] at h1
    exact h1.trans ha
  exact List.eq_of_perm_of_sorted hperm hsorted (List.sorted_le_range n)

theorem argsortL_inverse (n : Nat) (a : List Nat) (ha : a.Perm (List.range n)) :
    ∀ i, i < n → a.getD ((argsortL a).getD i 0) 0 = i := by
  intro i hi
  have h := (argsortL_spec n a ha).2
  have hlenM : (argsortL a).length = n := by
    have := (argsortL_spec n a ha).1.length_eq
    simpa using this
  have hi' : i < ((argsortL a).map (fun j => a.getD j 0)).length := by
    simpa [hlenM] using hi
  have h1 : ((argsortL a).map (fun j => a.getD j 0)).getD i 0 = i := by
    rw [h, List.getD_eq_getElem _ _ (by simpa using hi), List.getElem_range]
  rw [List.getD_eq_getElem _ _ hi'] at h1
  rw [List.getElem_map] at h1
  rw [List.getD_eq_getElem (argsortL a) 0
    (show i < (argsortL a).length by rw [hlenM]; exact hi)]
  exact h1

theorem transposePerm_shape (t : Tensor) (a : List Nat) :
    (transposePerm t a).shape = a.map (fun i => t.shape.getD i 0) := rfl

theorem transposeData_none_shape (t : Tensor) :
    (transposeData t none).shape = t.shape.reverse := by
  show ((List.range t.shape.length).reverse.map (fun i => t.shape.getD i 0)) =
    t.shape.reverse
  rw [List.map_reverse, map_getD_range]

theorem transpose_roundtrip_shape (t : Tensor) (a : List Nat)
    (ha : a.Perm (List.range t.shape.length)) :
    (transposeData (transposeData t (some a)) (some (argsortL a))).shape = t.shape := by
  have hlen : a.length = t.shape.length := by simpa using ha.length_eq
  have hlenM : (argsortL a).length = t.shape.length := by
    simpa using (argsortL_spec t.shape.length a ha).1.length_eq
  show ((argsortL a).map (fun i => (transposePerm t a).shape.getD i 0)) = t.shape
  apply ext_getD _ _ 0
  · simp [hlenM]
  · intro i hi
    have hi' : i < t.shape.length := by simpa [hlenM] using hi
    have hiM : i < (argsortL a).length := by rw [hlenM]; exact hi'
    rw [getD_map_of_lt _ _ _ _ 0 hiM]
    show (a.map (fun j => t.shape.getD j 0)).getD ((argsortL a).getD i 0) 0 =
      t.shape.getD i 0
    have hmi : (argsortL a).getD i 0 < a.length := by
      have hmem : (argsortL a).getD i 0 ∈ argsortL a := getD_mem_of_lt _ _ _ hiM
      have h3 : (argsortL a).getD i 0 ∈ List.range t.shape.length :=
        ((argsortL_spec t.shape.length a ha).1.mem_iff).mp hmem
      rw [hlen]
      exact List.mem_range.mp h3
    rw [getD_map_of_lt _ _ _ _ 0 hmi]
    rw [argsortL_inverse t.shape.length a ha i hi']

/-- C4 (amended): `Transpose.backward` transposes the incoming gradient by
`argsort(axes)`, which is provably the inverse permutation of `axes`; when
`axes` was unspecified, it transposes with `axes=None` again — the numpy
axis-reversal permutation (which is its own inverse), not the identity
permutation; in both cases the gradient recovers the original input
shape. -/
theorem transpose_backward_applies_inverse_permutation :
    (∀ (s : State) (f : Function) (dy : Nat) (a : List Nat),
      f.kind = OpKind.transposeOp (some a) →
        backwardK s f dy = ([(transposeF s dy (some (argsortL a))).1],
          (transposeF s dy (some (argsortL a))).2)) ∧
    (∀ (s : State) (f : Function) (dy : Nat),
      f.kind = OpKind.transposeOp none →
        backwardK s f dy = ([(transposeF s dy none).1], (transposeF s dy none).2)) ∧
    (∀ (n : Nat) (a : List Nat), a.Perm (List.range n) →
      ((argsortL a).Perm (List.range n) ∧
        ∀ i, i < n → a.getD ((argsortL a).getD i 0) 0 = i)) ∧
    (∀ (t : Tensor) (a : List Nat), a.Perm (List.range t.shape.length) →
      (transposeData (transposeData t (some a)) (some (argsortL a))).shape = t.shape) ∧
    (∀ t : Tensor, (transposeData t none).shape = t.shape.reverse ∧
      (transposeData (transposeData t none) none).shape = t.shape) := by
  refine ⟨?_, ?_, ?_, ?_, ?_⟩
  · intro s f dy a hk
    obtain ⟨k, sv, ins, outs, g⟩ := f
    simp only at hk
    subst hk
    rfl
  · intro s f dy hk
    obtain ⟨k, sv, ins, outs, g⟩ := f
    simp only at hk
    subst hk
    rfl
  · intro n a ha
    exact ⟨(argsortL_spec n a ha).1, argsortL_inverse n a ha⟩
  · exact transpose_roundtrip_shape
  · intro t
    refine ⟨transposeData_none_shape t, ?_⟩
    rw [transposeData_none_shape, transposeData_none_shape, List.reverse_reverse]

/-- C4 witness: the inverse-permutation facts evaluated at `axes = (1, 0)`
on a 2 by 3 tensor. -/
theorem transpose_backward_applies_inverse_permutation_witness :
    (backwardK emptyState
        ⟨OpKind.transposeOp (some [1, 0]), Saved.sNone, [0], [1], 0⟩ 0 =
      ([(transposeF emptyState 0 (some (argsortL [1, 0]))).1],
        (transposeF emptyState 0 (some (argsortL [1, 0]))).2)) ∧
    ((argsortL [1, 0]).Perm (List.range 2) ∧
      ∀ i, i < 2 → ([1, 0] : List Nat).getD ((argsortL [1, 0]).getD i 0) 0 = i) ∧
    ((transposeData (transposeData ⟨[2, 3], [1, 2, 3, 4, 5, 6]⟩ (some [1, 0]))
        (some (argsortL [1, 0]))).shape =
      (Tensor.mk [2, 3] [1, 2, 3, 4, 5, 6]).shape) :=
  ⟨(transpose_backward_applies_inverse_permutation).1 emptyState
      ⟨OpKind.transposeOp (some [1, 0]), Saved.sNone, [0], [1], 0⟩ 0 [1, 0] rfl,
   (transpose_backward_applies_inverse_permutation).2.2.1 2 [1, 0] (by decide),
   (transpose_backward_applies_inverse_permutation).2.2.2.1
      ⟨[2, 3], [1, 2, 3, 4, 5, 6]⟩ [1, 0] (by decide)⟩

/-- C4 counterexample: with `axes` unspecified the backward rule is not the
identity permutation.  On `x` of shape `[1, 2]`, `y = transpose(x)`,
`y.backward()`: the gradient stored on `x` is the all-ones seed of shape
`[2, 1]` transposed to shape `[1, 2]`; the identity permutation would have
left it at the seed itself (shape `[2, 1]`). -/
theorem transpose_backward_none_not_identity :
    ((backward (transposeF (newVar emptyState ⟨[1, 2], [5, 7]⟩).2 0 none).2 1 false).err =
      none) ∧
    ((backward (transposeF (newVar emptyState ⟨[1, 2], [5, 7]⟩).2 0 none).2 1
        false).st.varOf 0).grad = some (GVal.gVar 3) ∧
    (((backward (transposeF (newVar emptyState ⟨[1, 2], [5, 7]⟩).2 0 none).2 1
        false).st.varOf 3).data = transposeData (onesData [2, 1]) none) ∧
    (((backward (transposeF (newVar emptyState ⟨[1, 2], [5, 7]⟩).2 0 none).2 1
        false).st.varOf 3).data ≠ onesData [2, 1]) := by decide

theorem varOf_callFn_self (s : State) (k : OpKind) (ins : List Nat) :
    ((callFn s k ins).2.varOf s.vars.length).grad = none := by
  simp only [callFn, State.varOf]
  by_cases hb : s.enable_backprop
  · simp only [hb, if_true]
    rw [getD_snoc_self]
  · simp only [hb, Bool.false_eq_true, if_false]
    rw [getD_snoc_self]

theorem gradsGood_setGrad {s : State} (h : GradsGood s) (v : Nat) (g : Option GVal)
    (hgood : ∀ x, g = some x → ∃ i, x = GVal.gVar i) : GradsGood (s.setGrad v g) := by
  intro w x hw
  by_cases hwv : w = v
  · subst hwv
    by_cases hlt : w < s.vars.length
    · rw [grad_setGrad_self _ _ _ hlt] at hw
      exact hgood x hw
    · rw [setGrad_oor s w g (le_of_not_lt hlt)] at hw
      exact h w x hw
  · rw [varOf_setGrad_ne _ _ _ _ hwv] at hw
    exact h w x hw

theorem gradsGood_newVar {s : State} (h : GradsGood s) (t : Tensor) :
    GradsGood (newVar s t).2 := by
  intro w x hw
  by_cases hwv : w = s.vars.length
  · subst hwv
    rw [varOf_newVar_self] at hw
    exact absurd hw (by simp)
  · rw [varOf_newVar_ne _ _ _ hwv] at hw
    exact h w x hw

theorem gradsGood_callFn {s : State} (h : GradsGood s) (k : OpKind) (ins : List Nat) :
    GradsGood (callFn s k ins).2 := by
  intro w x hw
  by_cases hwv : w = s.vars.length
  · subst hwv
    rw [varOf_callFn_self] at hw
    exact absurd hw (by simp)
  · rw [varOf_callFn_ne _ _ _ _ hwv] at hw
    exact h w x hw

theorem gradsGood_sum_to {s : State} (h : GradsGood s) (x : Nat) (shape : List Nat) :
    GradsGood (sum_to s x shape).2 := by
  unfold sum_to
  split
  · exact h
  · exact gradsGood_callFn h _ _

theorem gradsGood_broadcast_to {s : State} (h : GradsGood s) (x : Nat)
    (shape : List Nat) : GradsGood (broadcast_to s x shape).2 := by
  unfold broadcast_to
  split
  · exact h
  · exact gradsGood_callFn h _ _

theorem gradsGood_backwardK {s : State} (h : GradsGood s) (f : Function) (dy : Nat) :
    GradsGood (backwardK s f dy).2 := by
  unfold backwardK
  cases hk : f.kind with
  | addOp =>
      cases hs : f.saved with
      | sShapes sh0 sh1 =>
          by_cases hne : sh0 ≠ sh1
          · simp only [if_pos hne]
            exact gradsGood_sum_to (gradsGood_sum_to h _ _) _ _
          · simp only [if_neg hne]
            exact h
      | sNone => exact h
      | sShape _ => exact h
  | mulOp =>
      by_cases hne : (s.varOf (f.inputs.getD 0 0)).data.shape ≠
          (s.varOf (f.inputs.getD 1 0)).data.shape
      · simp only [if_pos hne]
        exact gradsGood_sum_to (gradsGood_sum_to
          (gradsGood_callFn (gradsGood_callFn h _ _) _ _) _ _) _ _
      · simp only [if_neg hne]
        exact gradsGood_callFn (gradsGood_callFn h _ _) _ _
  | negOp => exact gradsGood_callFn (gradsGood_callFn h _ _) _ _
  | transposeOp axes =>
      cases axes with
      | none => exact gradsGood_callFn h _ _
      | some a => exact gradsGood_callFn h _ _
  | broadcastToOp sh =>
      cases hs : f.saved with
      | sShape xsh => exact gradsGood_sum_to h _ _
      | sNone => exact h
      | sShapes _ _ => exact h
  | sumToOp sh =>
      cases hs : f.saved with
      | sShape xsh => exact gradsGood_broadcast_to h _ _
      | sNone => exact h
      | sShapes _ _ => exact h

theorem gradsGood_accumGrad {s : State} (h : GradsGood s) (x dx : Nat) :
    GradsGood (accumGrad s x dx) := by
  unfold accumGrad
  cases hg : (s.varOf x).grad with
  | none =>
      exact gradsGood_setGrad h x _ (fun y hy => ⟨dx, by simpa using hy.symm⟩)
  | some g =>
      cases g with
      | gVar i =>
          exact gradsGood_setGrad (gradsGood_callFn h _ _) x _
            (fun y hy => ⟨_, by simpa using hy.symm⟩)
      | gArr t =>
          exact gradsGood_setGrad
            (gradsGood_callFn (gradsGood_newVar h t) _ _) x _
            (fun y hy => ⟨_, by simpa using hy.symm⟩)

theorem gradsGood_accumLoop (pairs : List (Nat × Nat)) :
    ∀ (s : State) (funcs seen : List Nat), GradsGood s →
      GradsGood (accumLoop s pairs funcs seen).1 := by
  induction pairs with
  | nil => intro s funcs seen h; exact h
  | cons p rest ih =>
      intro s funcs seen h
      obtain ⟨x, dx⟩ := p
      exact ih _ _ _ (gradsGood_accumGrad h x dx)

theorem gradsGood_clearOuts (outs : List Nat) :
    ∀ s : State, GradsGood s → GradsGood (clearOuts s outs) := by
  induction outs with
  | nil => intro s h; exact h
  | cons o rest ih =>
      intro s h
      exact ih _ (gradsGood_setGrad h o none (fun y hy => absurd hy (by simp)))

theorem gradsGood_processPop {s : State} {fid : Nat} {retain : Bool}
    {funcs seen : List Nat} {s3 : State} {funcs2 seen2 : List Nat}
    (h : GradsGood s)
    (hp : processPop s fid retain funcs seen = some (s3, funcs2, seen2)) :
    GradsGood s3 := by
  simp only [processPop] at hp
  cases hg : outGradVar s (s.funcOf fid) with
  | none => rw [hg] at hp; exact absurd hp (by simp)
  | some dy =>
      rw [hg] at hp
      simp only [Option.some.injEq, Prod.mk.injEq] at hp
      obtain ⟨h3, _, _⟩ := hp
      subst h3
      have h1 : GradsGood (backwardK s (s.funcOf fid) dy).2 := gradsGood_backwardK h _ _
      have h2 := gradsGood_accumLoop ((s.funcOf fid).inputs.zip
        (backwardK s (s.funcOf fid) dy).1) (backwardK s (s.funcOf fid) dy).2 funcs seen h1
      cases retain with
      | true => simpa using h2
      | false => exact gradsGood_clearOuts _ _ h2

theorem gradsGood_bwLoop (retain : Bool) (fuel : Nat) :
    ∀ (s : State) (funcs seen : List Nat), GradsGood s →
      GradsGood (bwLoop retain fuel s funcs seen).st := by
  induction fuel with
  | zero =>
      intro s funcs seen h
      unfold bwLoop
      split <;> exact h
  | succ n ih =>
      intro s funcs seen h
      unfold bwLoop
      cases hl : funcs.getLast? with
      | none => exact h
      | some fid =>
          simp only
          cases hp : processPop s fid retain funcs.dropLast seen with
          | none => exact h
          | some r =>
              obtain ⟨s3, funcs2, seen2⟩ := r
              exact ih s3 funcs2 seen2 (gradsGood_processPop h hp)

theorem gradsGood_seedIfNone {s : State} (h : GradsGood s) (v : Nat) :
    GradsGood (seedIfNone s v) := by
  unfold seedIfNone
  cases hg : (s.varOf v).grad with
  | some g => exact h
  | none =>
      exact gradsGood_setGrad (gradsGood_newVar h _) v _
        (fun y hy => ⟨_, by simpa using hy.symm⟩)

theorem gradsGood_backward {s : State} (h : GradsGood s) (v : Nat) (retain : Bool) :
    GradsGood (backward s v retain).st := by
  unfold backward backwardAux
  cases hc : ((seedIfNone s v).varOf v).creator with
  | none => exact gradsGood_seedIfNone h v
  | some c => exact gradsGood_bwLoop _ _ _ _ _ (gradsGood_seedIfNone h v)

theorem gradsGoodB_iff (s : State) : gradsGoodB s = true ↔ GradsGood s := by
  unfold gradsGoodB GradsGood
  rw [List.all_eq_true]
  constructor
  · intro h w g hg
    by_cases hw : w < s.vars.length
    · have hmem : s.varOf w ∈ s.vars := by
        unfold State.varOf
        exact getD_mem_of_lt _ _ _ hw
      have h2 := h _ hmem
      cases g with
      | gVar i => exact ⟨i, rfl⟩
      | gArr t => rw [hg] at h2; exact absurd h2 (by simp)
    · have : s.varOf w = dVariable := by
        unfold State.varOf
        rw [List.getD_eq_getElem?_getD, List.getElem?_eq_none (le_of_not_lt hw)]
        rfl
      rw [this] at hg
      exact absurd hg (by simp [dVariable])
  · intro h vd hmem
    obtain ⟨i, hi, hvd⟩ := List.mem_iff_getElem.mp hmem
    have hv : s.varOf i = vd := by
      unfold State.varOf
      rw [List.getD_eq_getElem _ _ hi]
      exact hvd
    cases hgr : vd.grad with
    | none => simp [hgr]
    | some g =>
        obtain ⟨j, hj⟩ := h i g (by rw [hv]; exact hgr)
        subst hj
        simp [hgr]

/-- C10: every gradient the backward pass stores is a `Variable` (the seed is
constructed as `Variable(np.ones(...))` and all accumulation and
backward-rule arithmetic goes through `Variable` operations), so whenever a
parameter has a gradient after `backward`, `SGD.update_one` — which reads
`param.grad.data` — is well-defined on it. -/
theorem backward_grads_are_variables (s : State) (v : Nat) (retain : Bool)
    (hg : gradsGoodB s = true) :
    gradsGoodB (backward s v retain).st = true ∧
    ∀ (lr : Int) (p : Nat), ((backward s v retain).st.varOf p).grad ≠ none →
      (sgdUpdateOne (backward s v retain).st lr p).isSome = true := by
  have hgood : GradsGood (backward s v retain).st :=
    gradsGood_backward ((gradsGoodB_iff s).mp hg) v retain
  refine ⟨(gradsGoodB_iff _).mpr hgood, ?_⟩
  intro lr p hne
  cases hp : ((backward s v retain).st.varOf p).grad with
  | none => exact absurd hp hne
  | some g =>
      obtain ⟨i, hi⟩ := hgood p g hp
      subst hi
      unfold sgdUpdateOne
      rw [hp]
      rfl

/-- C10 witness: on a concrete backward run, every stored gradient is a
`Variable` and the SGD update is defined on the leaf. -/
theorem backward_grads_are_variables_witness :
    gradsGoodB (newVar emptyState ⟨[2], [3, 5]⟩).2 = true ∧
    gradsGoodB (backward (negF (newVar emptyState ⟨[2], [3, 5]⟩).2 0).2 1 false).st = true ∧
    (((backward (negF (newVar emptyState ⟨[2], [3, 5]⟩).2 0).2 1 false).st.varOf 0).grad ≠
        none →
      (sgdUpdateOne (backward (negF (newVar emptyState ⟨[2], [3, 5]⟩).2 0).2 1
          false).st 1 0).isSome = true) :=
  ⟨by decide,
   (backward_grads_are_variables (negF (newVar emptyState ⟨[2], [3, 5]⟩).2 0).2 1 false
      (by decide)).1,
   (backward_grads_are_variables (negF (newVar emptyState ⟨[2], [3, 5]⟩).2 0).2 1 false
      (by decide)).2 1 0⟩

theorem varOf_oor (s : State) (w : Nat) (h : s.vars.length ≤ w) :
    s.varOf w = dVariable := by
  unfold State.varOf
  rw [List.getD_eq_getElem?_getD, List.getElem?_eq_none h]
  rfl

theorem wfB_implies_wfState {s : State} (h : wfB s = true) : WfState s := by
  unfold wfB at h
  rw [Bool.and_eq_true] at h
  obtain ⟨h1, h2⟩ := h
  rw [List.all_eq_true] at h1 h2
  constructor
  · intro f hf
    have hf' := h1 f (List.mem_range.mpr hf)
    simp only [Bool.and_eq_true, beq_iff_eq, decide_eq_true_eq,
      List.all_eq_true] at hf'
    obtain ⟨⟨⟨_, harity⟩, houts⟩, hins⟩ := hf'
    refine ⟨harity, ?_, ?_⟩
    · intro o ho
      have ho' := houts o ho
      exact ⟨ho'.1.1, ho'.1.2⟩
    · intro x hx
      have hx' := hins x hx
      refine ⟨hx'.1, ?_⟩
      intro c hc
      have hm := hx'.2
      rw [hc] at hm
      simp only [Bool.and_eq_true, beq_iff_eq, decide_eq_true_eq] at hm
      exact ⟨hm.1.1, hm.2⟩
  · intro x hx c hc
    have hx' := h2 x (List.mem_range.mpr hx)
    rw [hc] at hx'
    simp only [Bool.and_eq_true, beq_iff_eq, decide_eq_true_eq] at hx'
    exact hx'

/-- `WfState` transfers to any state with the same operation list whose
pre-existing variables kept creator and generation and whose new variables
are creator-less leaves. -/
theorem wfState_transfer {s s' : State}
    (hf : s'.funcs = s.funcs)
    (hvlen : s.vars.length ≤ s'.vars.length)
    (hold : ∀ w, w < s.vars.length →
      (s'.varOf w).creator = (s.varOf w).creator ∧
      (s'.varOf w).generation = (s.varOf w).generation)
    (hnew : ∀ w, s.vars.length ≤ w → (s'.varOf w).creator = none)
    (h : WfState s) : WfState s' := by
  have hfo : ∀ f, s'.funcOf f = s.funcOf f := by
    intro f
    unfold State.funcOf
    rw [hf]
  constructor
  · intro f hfl
    rw [hf] at hfl
    obtain ⟨ha, ho, hi⟩ := h.1 f hfl
    simp only [hfo]
    refine ⟨ha, ?_, ?_⟩
    · intro o hom
      obtain ⟨hb, hc⟩ := ho o hom
      exact ⟨lt_of_lt_of_le hb hvlen, by rw [(hold o hb).1]; exact hc⟩
    · intro x hxm
      obtain ⟨hb, hc⟩ := hi x hxm
      refine ⟨lt_of_lt_of_le hb hvlen, ?_⟩
      intro c hcc
      rw [(hold x hb).1] at hcc
      obtain ⟨hcb, hcg⟩ := hc c hcc
      rw [hf]
      exact ⟨hcb, hcg⟩
  · intro x hx c hc
    by_cases hxb : x < s.vars.length
    · rw [(hold x hxb).1] at hc
      obtain ⟨hcb, hco⟩ := h.2 x hxb c hc
      rw [hf, hfo]
      exact ⟨hcb, hco⟩
    · rw [hnew x (le_of_not_lt hxb)] at hc
      exact absurd hc (by simp)

theorem wfState_setGrad {s : State} (h : WfState s) (v : Nat) (g : Option GVal) :
    WfState (s.setGrad v g) := by
  refine @wfState_transfer s (s.setGrad v g) rfl
    (le_of_eq (vars_len_setGrad s v g).symm) ?_ ?_ h
  · intro w hw
    by_cases hwv : w = v
    · subst hwv
      rw [varOf_setGrad_self _ _ _ hw]
      exact ⟨rfl, rfl⟩
    · rw [varOf_setGrad_ne _ _ _ _ hwv]
      exact ⟨rfl, rfl⟩
  · intro w hw
    rw [varOf_oor _ w (by rw [vars_len_setGrad]; exact hw)]
    rfl

theorem wfState_newVar {s : State} (h : WfState s) (t : Tensor) :
    WfState (newVar s t).2 := by
  refine @wfState_transfer s (newVar s t).2 rfl
    (by rw [vars_len_newVar]; exact Nat.le_succ _) ?_ ?_ h
  · intro w hw
    rw [varOf_newVar_ne _ _ _ (Nat.ne_of_lt hw)]
    exact ⟨rfl, rfl⟩
  · intro w hw
    by_cases hwv : w = s.vars.length
    · subst hwv
      rw [varOf_newVar_self]
    · rw [varOf_newVar_ne _ _ _ hwv,
        varOf_oor _ w (lt_of_le_of_ne hw (fun he => hwv he.symm)).le]
      rfl

theorem wfState_seedIfNone {s : State} (h : WfState s) (v : Nat) :
    WfState (seedIfNone s v) := by
  unfold seedIfNone
  cases hg : (s.varOf v).grad with
  | some g => exact h
  | none => exact wfState_setGrad (wfState_newVar h _) _ _

theorem seedIfNone_funcs (s : State) (v : Nat) :
    (seedIfNone s v).funcs = s.funcs := by
  unfold seedIfNone
  cases hg : (s.varOf v).grad with
  | some g => rfl
  | none => rfl

theorem extends_seedIfNone (s : State) (v : Nat) : Extends s (seedIfNone s v) := by
  unfold seedIfNone
  cases hg : (s.varOf v).grad with
  | some g => exact extends_refl s
  | none => exact extends_trans (extends_newVar _ _) (extends_setGrad _ _ _)

/-!
## Worklist lemmas for the backward scheduler
-/

theorem addFunc_spec (s0 s : State) (hext : Extends s0 s) (fid : Nat)
    (hfid : fid < s0.funcs.length) (funcs seen : List Nat)
    (hinv : WorklistInv s0 funcs seen) :
    WorklistInv s0 (addFunc s fid funcs seen).1 (addFunc s fid funcs seen).2 ∧
    (∀ g ∈ (addFunc s fid funcs seen).1, g ∈ funcs ∨ g = fid) ∧
    (∀ g ∈ funcs, g ∈ (addFunc s fid funcs seen).1) ∧
    (∀ g ∈ (addFunc s fid funcs seen).2, g ∈ seen ∨ g = fid) ∧
    (∀ g ∈ seen, g ∈ (addFunc s fid funcs seen).2) ∧
    fid ∈ (addFunc s fid funcs seen).2 ∧
    (∀ g ∈ (addFunc s fid funcs seen).1, g ∈ funcs ∨ g ∉ seen) ∧
    (fid ∈ seen ∨ fid ∈ (addFunc s fid funcs seen).1) := by
  obtain ⟨hnd, hbnd, hsub, hsbnd, hsort⟩ := hinv
  unfold addFunc
  by_cases hmem : fid ∈ seen
  · simp only [if_pos hmem]
    exact ⟨⟨hnd, hbnd, hsub, hsbnd, hsort⟩, fun g hg => Or.inl hg, fun g hg => hg,
      fun g hg => Or.inl hg, fun g hg => hg, hmem, fun g hg => Or.inl hg, Or.inl hmem⟩
  · simp only [if_neg hmem]
    have hfidf : fid ∉ funcs := fun hc => hmem (hsub fid hc)
    have hmemS : ∀ g, g ∈ List.insertionSort
        (fun a b => genOfF s a ≤ genOfF s b) (funcs ++ [fid]) ↔
        g ∈ funcs ++ [fid] := fun g => List.mem_insertionSort _
    have hmem2 : ∀ g, g ∈ funcs ++ [fid] ↔ (g ∈ funcs ∨ g = fid) := by
      intro g
      simp [List.mem_append]
    haveI hT : IsTotal Nat (fun a b => genOfF s a ≤ genOfF s b) :=
      ⟨fun i j => Nat.le_total _ _⟩
    haveI hTr : IsTrans Nat (fun a b => genOfF s a ≤ genOfF s b) :=
      ⟨fun i j k hij hjk => Nat.le_trans hij hjk⟩
    have hsortS : List.Sorted (fun a b => genOfF s a ≤ genOfF s b)
        (List.insertionSort (fun a b => genOfF s a ≤ genOfF s b) (funcs ++ [fid])) :=
      List.sorted_insertionSort _ _
    have hbnd2 : ∀ g ∈ List.insertionSort
        (fun a b => genOfF s a ≤ genOfF s b) (funcs ++ [fid]), g < s0.funcs.length := by
      intro g hg
      rcases (hmem2 g).mp ((hmemS g).mp hg) with h | h
      · exact hbnd g h
      · subst h; exact hfid
    refine ⟨⟨?_, hbnd2, ?_, ?_, ?_⟩, ?_, ?_, ?_, ?_, ?_, ?_, ?_⟩
    · refine ((List.perm_insertionSort _ _).nodup_iff).mpr ?_
      rw [List.nodup_append]
      exact ⟨hnd, List.nodup_singleton fid, fun a ha hb => hfidf (by
        rw [List.mem_singleton] at hb
        exact hb ▸ ha)⟩
    · intro g hg
      rcases (hmem2 g).mp ((hmemS g).mp hg) with h | h
      · exact List.mem_cons_of_mem fid (hsub g h)
      · subst h; exact List.mem_cons_self _ _
    · intro g hg
      rcases List.mem_cons.mp hg with h | h
      · subst h; exact hfid
      · exact hsbnd g h
    · refine List.Pairwise.imp_of_mem ?_ hsortS
      intro a b ha hb hab
      rw [genOfF_of_extends hext a (hbnd2 a ha),
        genOfF_of_extends hext b (hbnd2 b hb)] at hab
      exact hab
    · intro g hg
      exact (hmem2 g).mp ((hmemS g).mp hg)
    · intro g hg
      exact (hmemS g).mpr ((hmem2 g).mpr (Or.inl hg))
    · intro g hg
      rcases List.mem_cons.mp hg with h | h
      · exact Or.inr h
      · exact Or.inl h
    · intro g hg
      exact List.mem_cons_of_mem fid hg
    · exact List.mem_cons_self _ _
    · intro g hg
      rcases (hmem2 g).mp ((hmemS g).mp hg) with h | h
      · exact Or.inl h
      · subst h; exact Or.inr hmem
    · exact Or.inr ((hmemS fid).mpr ((hmem2 fid).mpr (Or.inr rfl)))

theorem worklistInv_dropLast (s0 : State) (funcs seen : List Nat)
    (hinv : WorklistInv s0 funcs seen) : WorklistInv s0 funcs.dropLast seen := by
  obtain ⟨hn, hb, hs, hsb, hsort⟩ := hinv
  have hsub := List.dropLast_sublist funcs
  exact ⟨hn.sublist hsub, fun f hf => hb f (hsub.subset hf),
    fun f hf => hs f (hsub.subset hf), hsb, List.Pairwise.sublist hsub hsort⟩

theorem getLast?_cases (funcs : List Nat) (fid : Nat)
    (hl : funcs.getLast? = some fid) :
    funcs = funcs.dropLast ++ [fid] ∧ fid ∈ funcs := by
  have hne : funcs ≠ [] := by
    intro he
    rw [he] at hl
    exact absurd hl (by simp)
  have hfl : funcs.getLast hne = fid := by
    rw [List.getLast?_eq_getLast funcs hne] at hl
    exact Option.some.inj hl
  have h2 := List.dropLast_append_getLast hne
  rw [hfl] at h2
  refine ⟨h2.symm, ?_⟩
  rw [← h2]
  simp

theorem sorted_last_ge (s0 : State) (funcs : List Nat) (fid : Nat)
    (hsort : List.Sorted (fun a b => genOfF s0 a ≤ genOfF s0 b) funcs)
    (hl : funcs.getLast? = some fid) :
    ∀ g ∈ funcs.dropLast, genOfF s0 g ≤ genOfF s0 fid := by
  intro g hg
  obtain ⟨h2, _⟩ := getLast?_cases funcs fid hl
  rw [h2] at hsort
  exact (List.pairwise_append.mp hsort).2.2 g hg fid (by simp)

theorem last_not_in_dropLast (funcs : List Nat) (fid : Nat)
    (hl : funcs.getLast? = some fid) (hnd : funcs.Nodup) :
    fid ∉ funcs.dropLast := by
  obtain ⟨h2, _⟩ := getLast?_cases funcs fid hl
  rw [h2] at hnd
  rw [List.nodup_append] at hnd
  intro hc
  exact hnd.2.2 hc (by simp)

/-!
## Gradient-field effect lemmas for one scheduler iteration
-/

theorem grad_callFn_lt (s : State) (k : OpKind) (ins : List Nat) (w : Nat)
    (hw : w < s.vars.length) :
    ((callFn s k ins).2.varOf w).grad = (s.varOf w).grad := by
  rw [varOf_callFn_ne _ _ _ _ (Nat.ne_of_lt hw)]

theorem grad_sum_to_lt (s : State) (x : Nat) (shape : List Nat) (w : Nat)
    (hw : w < s.vars.length) :
    ((sum_to s x shape).2.varOf w).grad = (s.varOf w).grad := by
  unfold sum_to
  split
  · rfl
  · exact grad_callFn_lt _ _ _ _ hw

theorem grad_broadcast_to_lt (s : State) (x : Nat) (shape : List Nat) (w : Nat)
    (hw : w < s.vars.length) :
    ((broadcast_to s x shape).2.varOf w).grad = (s.varOf w).grad := by
  unfold broadcast_to
  split
  · rfl
  · exact grad_callFn_lt _ _ _ _ hw

theorem gradPres_refl (s : State) : GradPres s s := ⟨le_refl _, fun _ _ => rfl⟩

theorem gradPres_trans {s1 s2 s3 : State} (h12 : GradPres s1 s2)
    (h23 : GradPres s2 s3) : GradPres s1 s3 :=
  ⟨le_trans h12.1 h23.1, fun w hw =>
    (h23.2 w (lt_of_lt_of_le hw h12.1)).trans (h12.2 w hw)⟩

theorem gradPres_callFn (s : State) (k : OpKind) (ins : List Nat) :
    GradPres s (callFn s k ins).2 :=
  ⟨(extends_callFn s k ins).2.1, fun w hw => grad_callFn_lt s k ins w hw⟩

theorem gradPres_sum_to (s : State) (x : Nat) (shape : List Nat) :
    GradPres s (sum_to s x shape).2 :=
  ⟨(extends_sum_to s x shape).2.1, fun w hw => grad_sum_to_lt s x shape w hw⟩

theorem gradPres_broadcast_to (s : State) (x : Nat) (shape : List Nat) :
    GradPres s (broadcast_to s x shape).2 :=
  ⟨(extends_broadcast_to s x shape).2.1, fun w hw => grad_broadcast_to_lt s x shape w hw⟩

theorem gradPres_backwardK (s : State) (f : Function) (dy : Nat) :
    GradPres s (backwardK s f dy).2 := by
  unfold backwardK
  cases hk : f.kind with
  | addOp =>
      cases hs : f.saved with
      | sShapes sh0 sh1 =>
          by_cases h : sh0 ≠ sh1
          · simp only [if_pos h]
            exact gradPres_trans (gradPres_sum_to _ _ _) (gradPres_sum_to _ _ _)
          · simp only [if_neg h]
            exact gradPres_refl s
      | sNone => exact gradPres_refl s
      | sShape _ => exact gradPres_refl s
  | mulOp =>
      by_cases h : (s.varOf (f.inputs.getD 0 0)).data.shape ≠
          (s.varOf (f.inputs.getD 1 0)).data.shape
      · simp only [if_pos h]
        exact gradPres_trans (gradPres_callFn _ _ _)
          (gradPres_trans (gradPres_callFn _ _ _)
            (gradPres_trans (gradPres_sum_to _ _ _) (gradPres_sum_to _ _ _)))
      · simp only [if_neg h]
        exact gradPres_trans (gradPres_callFn _ _ _) (gradPres_callFn _ _ _)
  | negOp =>
      exact gradPres_trans (gradPres_callFn _ _ _) (gradPres_callFn _ _ _)
  | transposeOp axes =>
      cases axes with
      | none => exact gradPres_callFn _ _ _
      | some a => exact gradPres_callFn _ _ _
  | broadcastToOp sh =>
      cases hs : f.saved with
      | sShape xsh => exact gradPres_sum_to _ _ _
      | sNone => exact gradPres_refl s
      | sShapes _ _ => exact gradPres_refl s
  | sumToOp sh =>
      cases hs : f.saved with
      | sShape xsh => exact gradPres_broadcast_to _ _ _
      | sNone => exact gradPres_refl s
      | sShapes _ _ => exact gradPres_refl s

theorem grad_backwardK_lt (s : State) (f : Function) (dy : Nat) (w : Nat)
    (hw : w < s.vars.length) :
    ((backwardK s f dy).2.varOf w).grad = (s.varOf w).grad :=
  (gradPres_backwardK s f dy).2 w hw

theorem backwardK_length (s : State) (f : Function) (dy : Nat) :
    (backwardK s f dy).1.length = arityK f.kind := by
  obtain ⟨k, sv, ins, outs, g⟩ := f
  cases k with
  | addOp =>
      cases sv with
      | sShapes sh0 sh1 =>
          simp only [backwardK]
          split <;> rfl
      | sNone => rfl
      | sShape _ => rfl
  | mulOp =>
      simp only [backwardK]
      split <;> rfl
  | negOp => rfl
  | transposeOp axes => cases axes <;> rfl
  | broadcastToOp sh => cases sv <;> rfl
  | sumToOp sh => cases sv <;> rfl

theorem accumGrad_self_some (s : State) (x dx : Nat) (hx : x < s.vars.length) :
    ∃ gg, ((accumGrad s x dx).varOf x).grad = some (GVal.gVar gg) := by
  unfold accumGrad
  cases hg : (s.varOf x).grad with
  | none => exact ⟨dx, grad_setGrad_self _ _ _ hx⟩
  | some g =>
      cases g with
      | gVar i =>
          refine ⟨(addF s i dx).1, grad_setGrad_self _ _ _ ?_⟩
          exact lt_of_lt_of_le hx (extends_callFn s OpKind.addOp [i, dx]).2.1
      | gArr t =>
          refine ⟨(addF (newVar s t).2 dx (newVar s t).1).1, grad_setGrad_self _ _ _ ?_⟩
          exact lt_of_lt_of_le hx (le_trans (extends_newVar s t).2.1
            (extends_callFn _ OpKind.addOp _).2.1)

theorem accumGrad_other (s : State) (x dx w : Nat) (hw : w < s.vars.length)
    (hne : w ≠ x) :
    ((accumGrad s x dx).varOf w).grad = (s.varOf w).grad := by
  unfold accumGrad
  cases hg : (s.varOf x).grad with
  | none => rw [varOf_setGrad_ne _ _ _ _ hne]
  | some g =>
      cases g with
      | gVar i =>
          rw [varOf_setGrad_ne _ _ _ _ hne]
          exact grad_callFn_lt _ _ _ _ hw
      | gArr t =>
          rw [varOf_setGrad_ne _ _ _ _ hne]
          have h1 := lt_of_lt_of_le hw (extends_newVar s t).2.1
          have h2 : ((addF (newVar s t).2 dx (newVar s t).1).2.varOf w).grad =
              ((newVar s t).2.varOf w).grad := grad_callFn_lt _ _ _ _ h1
          rw [h2, varOf_newVar_ne _ _ _ (Nat.ne_of_lt hw)]

theorem accumLoop_grad_effect (pairs : List (Nat × Nat)) :
    ∀ (s : State) (funcs seen : List Nat),
      (∀ p ∈ pairs, p.1 < s.vars.length) →
      ((∀ w, w < s.vars.length → w ∉ pairs.map Prod.fst →
          ((accumLoop s pairs funcs seen).1.varOf w).grad = (s.varOf w).grad) ∧
       (∀ w, w < s.vars.length →
          (w ∈ pairs.map Prod.fst ∨ ∃ gg, (s.varOf w).grad = some (GVal.gVar gg)) →
          ∃ gg, ((accumLoop s pairs funcs seen).1.varOf w).grad =
            some (GVal.gVar gg))) := by
  induction pairs with
  | nil =>
      intro s funcs seen hp
      exact ⟨fun w _ _ => rfl, fun w _ hw => by
        rcases hw with h | h
        · exact absurd h (by simp)
        · exact h⟩
  | cons p rest ih =>
      intro s funcs seen hp
      obtain ⟨x, dx⟩ := p
      have hx : x < s.vars.length := hp (x, dx) (List.mem_cons_self _ _)
      have hlen1 : s.vars.length ≤ (accumGrad s x dx).vars.length :=
        (extends_accumGrad s x dx).2.1
      have hp1 : ∀ q ∈ rest, q.1 < (accumGrad s x dx).vars.length := by
        intro q hq
        exact lt_of_lt_of_le (hp q (List.mem_cons_of_mem _ hq)) hlen1
      have hloop : accumLoop s ((x, dx) :: rest) funcs seen =
          accumLoop (accumGrad s x dx) rest
            (match ((accumGrad s x dx).varOf x).creator with
              | some c => addFunc (accumGrad s x dx) c funcs seen
              | none => (funcs, seen)).1
            (match ((accumGrad s x dx).varOf x).creator with
              | some c => addFunc (accumGrad s x dx) c funcs seen
              | none => (funcs, seen)).2 := rfl
      obtain ⟨ihA, ihB⟩ := ih (accumGrad s x dx)
        (match ((accumGrad s x dx).varOf x).creator with
          | some c => addFunc (accumGrad s x dx) c funcs seen
          | none => (funcs, seen)).1
        (match ((accumGrad s x dx).varOf x).creator with
          | some c => addFunc (accumGrad s x dx) c funcs seen
          | none => (funcs, seen)).2 hp1
      constructor
      · intro w hw hwm
        have hwx : w ≠ x := by
          intro he
          exact hwm (by rw [he]; simp)
        have hwr : w ∉ rest.map Prod.fst := by
          intro hc
          exact hwm (by simp only [List.map_cons]; exact List.mem_cons_of_mem _ hc)
        rw [hloop, ihA w (lt_of_lt_of_le hw hlen1) hwr]
        exact accumGrad_other s x dx w hw hwx
      · intro w hw hwm
        rw [hloop]
        rcases hwm with h | h
        · simp only [List.map_cons] at h
          rcases List.mem_cons.mp h with h1 | h1
          · subst h1
            refine ihB w (lt_of_lt_of_le hw hlen1) (Or.inr ?_)
            exact accumGrad_self_some s w dx hw
          · exact ihB w (lt_of_lt_of_le hw hlen1) (Or.inl h1)
        · by_cases hwx : w = x
          · subst hwx
            refine ihB w (lt_of_lt_of_le hw hlen1) (Or.inr ?_)
            exact accumGrad_self_some s w dx hw
          · refine ihB w (lt_of_lt_of_le hw hlen1) (Or.inr ?_)
            rw [accumGrad_other s x dx w hw hwx]
            exact h

theorem clearOuts_effect (outs : List Nat) :
    ∀ s : State,
      (∀ o ∈ outs, o < s.vars.length) →
      ((∀ w, w ∈ outs → ((clearOuts s outs).varOf w).grad = none) ∧
       (∀ w, w ∉ outs → (clearOuts s outs).varOf w = s.varOf w)) := by
  induction outs with
  | nil => exact fun s _ => ⟨fun w hw => absurd hw (by simp), fun w _ => rfl⟩
  | cons o rest ih =>
      intro s hb
      have hos : o < s.vars.length := hb o (List.mem_cons_self _ _)
      have hb1 : ∀ q ∈ rest, q < (s.setGrad o none).vars.length := by
        intro q hq
        rw [vars_len_setGrad]
        exact hb q (List.mem_cons_of_mem _ hq)
      obtain ⟨ihA, ihB⟩ := ih (s.setGrad o none) hb1
      have hloop : clearOuts s (o :: rest) = clearOuts (s.setGrad o none) rest := rfl
      constructor
      · intro w hw
        rw [hloop]
        rcases List.mem_cons.mp hw with h | h
        · subst h
          by_cases hr : w ∈ rest
          · exact ihA w hr
          · rw [ihB w hr]
            exact grad_setGrad_self s w none hos
        · exact ihA w h
      · intro w hw
        rw [hloop, ihB w (fun hc => hw (List.mem_cons_of_mem _ hc)),
          varOf_setGrad_ne s o w none (fun he => hw (he ▸ List.mem_cons_self _ _))]

theorem accumLoop_worklist (s0 : State) (pairs : List (Nat × Nat)) :
    ∀ (s : State) (funcs seen : List Nat),
      Extends s0 s →
      WorklistInv s0 funcs seen →
      (∀ p ∈ pairs, p.1 < s0.vars.length) →
      (∀ x, x < s0.vars.length → ∀ c, (s0.varOf x).creator = some c →
        c < s0.funcs.length) →
      (WorklistInv s0 (accumLoop s pairs funcs seen).2.1
        (accumLoop s pairs funcs seen).2.2 ∧
       (∀ g ∈ funcs, g ∈ (accumLoop s pairs funcs seen).2.1) ∧
       (∀ g ∈ seen, g ∈ (accumLoop s pairs funcs seen).2.2) ∧
       (∀ g ∈ (accumLoop s pairs funcs seen).2.1, g ∈ funcs ∨ g ∉ seen) ∧
       (∀ g ∈ (accumLoop s pairs funcs seen).2.2, g ∈ seen ∨
          g ∈ (accumLoop s pairs funcs seen).2.1) ∧
       (∀ g ∈ (accumLoop s pairs funcs seen).2.1, g ∈ funcs ∨
          ∃ p ∈ pairs, (s0.varOf p.1).creator = some g) ∧
       (∀ p ∈ pairs, ∀ c, (s0.varOf p.1).creator = some c →
          c ∈ (accumLoop s pairs funcs seen).2.2)) := by
  induction pairs with
  | nil =>
      intro s funcs seen hext hinv hp hcr
      exact ⟨hinv, fun g hg => hg, fun g hg => hg, fun g hg => Or.inl hg,
        fun g hg => Or.inl hg, fun g hg => Or.inl hg,
        fun p hp2 c hc => absurd hp2 (by simp)⟩
  | cons p rest ih =>
      intro s funcs seen hext hinv hp hcr
      obtain ⟨x, dx⟩ := p
      have hx0 : x < s0.vars.length := hp (x, dx) (List.mem_cons_self _ _)
      have hext1 : Extends s0 (accumGrad s x dx) :=
        extends_trans hext (extends_accumGrad s x dx)
      have hcreq : ((accumGrad s x dx).varOf x).creator = (s0.varOf x).creator :=
        creator_of_extends hext1 x hx0
      have hloop : accumLoop s ((x, dx) :: rest) funcs seen =
          accumLoop (accumGrad s x dx) rest
            (match ((accumGrad s x dx).varOf x).creator with
              | some c => addFunc (accumGrad s x dx) c funcs seen
              | none => (funcs, seen)).1
            (match ((accumGrad s x dx).varOf x).creator with
              | some c => addFunc (accumGrad s x dx) c funcs seen
              | none => (funcs, seen)).2 := rfl
      rw [hloop]
      have hrest : ∀ q ∈ rest, q.1 < s0.vars.length :=
        fun q hq => hp q (List.mem_cons_of_mem _ hq)
      cases hc : ((accumGrad s x dx).varOf x).creator with
      | none =>
          simp only
          obtain ⟨a1, a2, a3, a4, a5, a6, a7⟩ :=
            ih (accumGrad s x dx) funcs seen hext1 hinv hrest hcr
          refine ⟨a1, a2, a3, a4, a5, ?_, ?_⟩
          · intro g hg
            rcases a6 g hg with h | ⟨q, hq, hqc⟩
            · exact Or.inl h
            · exact Or.inr ⟨q, List.mem_cons_of_mem _ hq, hqc⟩
          · intro q hq c hqc
            rcases List.mem_cons.mp hq with h | h
            · exfalso
              have : (s0.varOf q.1).creator = some c := hqc
              rw [h] at this
              simp only at this
              rw [← hcreq] at this
              rw [hc] at this
              exact Option.noConfusion this
            · exact a7 q h c hqc
      | some c =>
          simp only
          have hcb : c < s0.funcs.length := by
            rw [hcreq] at hc
            exact hcr x hx0 c hc
          obtain ⟨b1, b2, b3, b4, b5, b6, b7, b8⟩ :=
            addFunc_spec s0 (accumGrad s x dx) hext1 c hcb funcs seen hinv
          obtain ⟨a1, a2, a3, a4, a5, a6, a7⟩ :=
            ih (accumGrad s x dx)
              (addFunc (accumGrad s x dx) c funcs seen).1
              (addFunc (accumGrad s x dx) c funcs seen).2 hext1 b1 hrest hcr
          refine ⟨a1, ?_, ?_, ?_, ?_, ?_, ?_⟩
          · intro g hg
            exact a2 g (b3 g hg)
          · intro g hg
            exact a3 g (b5 g hg)
          · intro g hg
            rcases a4 g hg with h | h
            · exact b7 g h
            · right
              intro hcon
              exact h (b5 g hcon)
          · intro g hg
            rcases a5 g hg with h | h
            · rcases b4 g h with h2 | h2
              · exact Or.inl h2
              · subst h2
                rcases b8 with h3 | h3
                · exact Or.inl h3
                · exact Or.inr (a2 g h3)
            · exact Or.inr h
          · intro g hg
            rcases a6 g hg with h | ⟨q, hq, hqc⟩
            · rcases b2 g h with h2 | h2
              · exact Or.inl h2
              · subst h2
                refine Or.inr ⟨(x, dx), List.mem_cons_self _ _, ?_⟩
                rw [← hcreq]
                exact hc
            · exact Or.inr ⟨q, List.mem_cons_of_mem _ hq, hqc⟩
          · intro q hq cc hqc
            rcases List.mem_cons.mp hq with h | h
            · have hceq : cc = c := by
                have h2 : (s0.varOf q.1).creator = some cc := hqc
                rw [h] at h2
                simp only at h2
                rw [← hcreq, hc] at h2
                exact (Option.some.inj h2).symm
              subst hceq
              exact a3 cc b6
            · exact a7 q h cc hqc

theorem processPop_inputs_eq_pairs_fst (s0 s : State) (fid : Nat) (dy : Nat)
    (hwf : WfState s0) (hext : Extends s0 s) (hfid : fid < s0.funcs.length) :
    ((s.funcOf fid).inputs.zip (backwardK s (s.funcOf fid) dy).1).map Prod.fst =
      (s0.funcOf fid).inputs := by
  rw [funcOf_of_extends hext fid hfid]
  apply List.map_fst_zip
  rw [backwardK_length]
  rw [(hwf.1 fid hfid).1]

theorem processPop_worklist (s0 s : State) (fid : Nat) (retain : Bool)
    (funcs seen : List Nat) (s3 : State) (funcs2 seen2 : List Nat)
    (hwf : WfState s0) (hext : Extends s0 s) (hfid : fid < s0.funcs.length)
    (hinv : WorklistInv s0 funcs seen)
    (hp : processPop s fid retain funcs seen = some (s3, funcs2, seen2)) :
    WorklistInv s0 funcs2 seen2 ∧
    (∀ g ∈ funcs, g ∈ funcs2) ∧
    (∀ g ∈ seen, g ∈ seen2) ∧
    (∀ g ∈ funcs2, g ∈ funcs ∨ g ∉ seen) ∧
    (∀ g ∈ seen2, g ∈ seen ∨ g ∈ funcs2) ∧
    (∀ g ∈ funcs2, g ∈ funcs ∨
       ∃ x ∈ (s0.funcOf fid).inputs, (s0.varOf x).creator = some g) ∧
    (∀ x ∈ (s0.funcOf fid).inputs, ∀ c, (s0.varOf x).creator = some c →
       c ∈ seen2) := by
  simp only [processPop] at hp
  cases hg : outGradVar s (s.funcOf fid) with
  | none => rw [hg] at hp; exact absurd hp (by simp)
  | some dy =>
      rw [hg] at hp
      simp only [Option.some.injEq, Prod.mk.injEq] at hp
      obtain ⟨_, hf2, hs2⟩ := hp
      have hext2 : Extends s0 (backwardK s (s.funcOf fid) dy).2 :=
        extends_trans hext (extends_backwardK s (s.funcOf fid) dy)
      have hmapfst := processPop_inputs_eq_pairs_fst s0 s fid dy hwf hext hfid
      have hpairs : ∀ p ∈ (s.funcOf fid).inputs.zip
          (backwardK s (s.funcOf fid) dy).1, p.1 < s0.vars.length := by
        intro p hpm
        have h1 : p.1 ∈ (s0.funcOf fid).inputs := by
          rw [← hmapfst]
          exact List.mem_map_of_mem Prod.fst hpm
        exact ((hwf.1 fid hfid).2.2 p.1 h1).1
      have hcr : ∀ x, x < s0.vars.length → ∀ c, (s0.varOf x).creator = some c →
          c < s0.funcs.length := fun x hx c hc => (hwf.2 x hx c hc).1
      obtain ⟨a1, a2, a3, a4, a5, a6, a7⟩ :=
        accumLoop_worklist s0 ((s.funcOf fid).inputs.zip
          (backwardK s (s.funcOf fid) dy).1)
          (backwardK s (s.funcOf fid) dy).2 funcs seen hext2 hinv hpairs hcr
      subst hf2 hs2
      refine ⟨a1, a2, a3, a4, a5, ?_, ?_⟩
      · intro g hg
        rcases a6 g hg with h | ⟨q, hq, hqc⟩
        · exact Or.inl h
        · refine Or.inr ⟨q.1, ?_, hqc⟩
          rw [← hmapfst]
          exact List.mem_map_of_mem Prod.fst hq
      · intro x hx c hc
        have hx2 : x ∈ ((s.funcOf fid).inputs.zip
            (backwardK s (s.funcOf fid) dy).1).map Prod.fst := by
          rw [hmapfst]
          exact hx
        obtain ⟨q, hq, hq1⟩ := List.mem_map.mp hx2
        refine a7 q hq c ?_
        rw [hq1]
        exact hc

theorem processPop_grad (s0 s : State) (fid : Nat)
    (funcs seen : List Nat) (s3 : State) (funcs2 seen2 : List Nat)
    (hwf : WfState s0) (hext : Extends s0 s) (hfid : fid < s0.funcs.length)
    (hp : processPop s fid false funcs seen = some (s3, funcs2, seen2)) :
    (∀ w ∈ (s0.funcOf fid).outputs, (s3.varOf w).grad = none) ∧
    (∀ w, w < s0.vars.length → w ∉ (s0.funcOf fid).outputs →
       w ∈ (s0.funcOf fid).inputs →
       ∃ gg, (s3.varOf w).grad = some (GVal.gVar gg)) ∧
    (∀ w, w < s0.vars.length → w ∉ (s0.funcOf fid).outputs →
       w ∉ (s0.funcOf fid).inputs → (s3.varOf w).grad = (s.varOf w).grad) := by
  simp only [processPop] at hp
  cases hg : outGradVar s (s.funcOf fid) with
  | none => rw [hg] at hp; exact absurd hp (by simp)
  | some dy =>
      rw [hg] at hp
      simp only [Option.some.injEq, Prod.mk.injEq] at hp
      obtain ⟨hs3, _, _⟩ := hp
      simp only [Bool.false_eq_true, if_false] at hs3
      subst hs3
      have hfeq : s.funcOf fid = s0.funcOf fid := funcOf_of_extends hext fid hfid
      have hext2 : Extends s0 (backwardK s (s.funcOf fid) dy).2 :=
        extends_trans hext (extends_backwardK s (s.funcOf fid) dy)
      have hmapfst := processPop_inputs_eq_pairs_fst s0 s fid dy hwf hext hfid
      have hpairs : ∀ p ∈ (s.funcOf fid).inputs.zip
          (backwardK s (s.funcOf fid) dy).1,
          p.1 < (backwardK s (s.funcOf fid) dy).2.vars.length := by
        intro p hpm
        have h1 : p.1 ∈ (s0.funcOf fid).inputs := by
          rw [← hmapfst]
          exact List.mem_map_of_mem Prod.fst hpm
        exact lt_of_lt_of_le ((hwf.1 fid hfid).2.2 p.1 h1).1 hext2.2.1
      obtain ⟨eA, eB⟩ := accumLoop_grad_effect ((s.funcOf fid).inputs.zip
        (backwardK s (s.funcOf fid) dy).1) (backwardK s (s.funcOf fid) dy).2
        funcs seen hpairs
      have houtb : ∀ o ∈ (s.funcOf fid).outputs,
          o < (accumLoop (backwardK s (s.funcOf fid) dy).2
            ((s.funcOf fid).inputs.zip (backwardK s (s.funcOf fid) dy).1)
            funcs seen).1.vars.length := by
        intro o ho
        have h1 : o < s0.vars.length := by
          refine ((hwf.1 fid hfid).2.1 o ?_).1
          rw [← hfeq]
          exact ho
        refine lt_of_lt_of_le h1 (le_trans hext2.2.1 ?_)
        exact (extends_accumLoop _ _ _ _).2.1
      obtain ⟨cA, cB⟩ := clearOuts_effect (s.funcOf fid).outputs _ houtb
      have hvlen0 : s0.vars.length ≤ (backwardK s (s.funcOf fid) dy).2.vars.length :=
        hext2.2.1
      refine ⟨?_, ?_, ?_⟩
      · intro w hw
        rw [← hfeq] at hw
        exact cA w hw
      · intro w hwb hwo hwi
        rw [← hfeq] at hwo
        rw [cB w hwo]
        refine eB w (lt_of_lt_of_le hwb hvlen0) (Or.inl ?_)
        rw [hmapfst]
        exact hwi
      · intro w hwb hwo hwi
        rw [← hfeq] at hwo
        rw [cB w hwo]
        rw [eA w (lt_of_lt_of_le hwb hvlen0) (by rw [hmapfst]; exact hwi)]
        exact grad_backwardK_lt s (s.funcOf fid) dy w
          (lt_of_lt_of_le hwb hext.2.1)

theorem bwLoop_trace_spec (s0 : State) (retain : Bool) (hwf : WfState s0)
    (fuel : Nat) :
    ∀ (s : State) (funcs seen : List Nat),
      Extends s0 s → WorklistInv s0 funcs seen →
      ((∀ p ∈ (bwLoop retain fuel s funcs seen).trace, p.1 ∈ funcs ∨ p.1 ∉ seen) ∧
       ((bwLoop retain fuel s funcs seen).trace.map Prod.fst).Nodup ∧
       (∀ p ∈ (bwLoop retain fuel s funcs seen).trace, ∀ g ∈ p.2,
          genOfF s0 g ≤ genOfF s0 p.1) ∧
       (∀ p ∈ (bwLoop retain fuel s funcs seen).trace, p.1 < s0.funcs.length)) := by
  induction fuel with
  | zero =>
      intro s funcs seen hext hinv
      unfold bwLoop
      split <;>
        exact ⟨fun p hp => absurd hp (by simp), by simp,
          fun p hp => absurd hp (by simp), fun p hp => absurd hp (by simp)⟩
  | succ n ih =>
      intro s funcs seen hext hinv
      unfold bwLoop
      cases hl : funcs.getLast? with
      | none =>
          exact ⟨fun p hp => absurd hp (by simp), by simp,
            fun p hp => absurd hp (by simp), fun p hp => absurd hp (by simp)⟩
      | some fid =>
          simp only
          cases hp : processPop s fid retain funcs.dropLast seen with
          | none =>
              exact ⟨fun p hp2 => absurd hp2 (by simp), by simp,
                fun p hp2 => absurd hp2 (by simp), fun p hp2 => absurd hp2 (by simp)⟩
          | some r =>
              obtain ⟨s3, funcs2, seen2⟩ := r
              have hfidmem : fid ∈ funcs := (getLast?_cases funcs fid hl).2
              have hfidb : fid < s0.funcs.length := hinv.2.1 fid hfidmem
              have hinvd : WorklistInv s0 funcs.dropLast seen :=
                worklistInv_dropLast s0 funcs seen hinv
              obtain ⟨p1, p2, p3, p4, p5, p6, p7⟩ :=
                processPop_worklist s0 s fid retain funcs.dropLast seen s3 funcs2
                  seen2 hwf hext hfidb hinvd hp
              have hext3 : Extends s0 s3 := extends_trans hext (extends_processPop hp)
              obtain ⟨ihA, ihB, ihC, ihD⟩ := ih s3 funcs2 seen2 hext3 p1
              have hdl : ∀ g ∈ funcs.dropLast, g ∈ funcs :=
                fun g hg => (List.dropLast_sublist funcs).subset hg
              refine ⟨?_, ?_, ?_, ?_⟩
              · intro p hpm
                rcases List.mem_cons.mp hpm with h | h
                · subst h
                  exact Or.inl hfidmem
                · rcases ihA p h with h2 | h2
                  · rcases p4 p.1 h2 with h3 | h3
                    · exact Or.inl (hdl _ h3)
                    · exact Or.inr h3
                  · exact Or.inr (fun hc => h2 (p3 p.1 hc))
              · simp only [List.map_cons]
                rw [List.nodup_cons]
                refine ⟨?_, ihB⟩
                intro hc
                obtain ⟨p, hpm, hpf⟩ := List.mem_map.mp hc
                rcases ihA p hpm with h2 | h2
                · rw [hpf] at h2
                  rcases p4 fid h2 with h3 | h3
                  · exact last_not_in_dropLast funcs fid hl hinv.1 h3
                  · exact h3 (hinv.2.2.1 fid hfidmem)
                · rw [hpf] at h2
                  exact h2 (p3 fid (hinv.2.2.1 fid hfidmem))
              · intro p hpm
                rcases List.mem_cons.mp hpm with h | h
                · subst h
                  exact sorted_last_ge s0 funcs fid hinv.2.2.2.2 hl
                · exact ihC p h
              · intro p hpm
                rcases List.mem_cons.mp hpm with h | h
                · subst h
                  exact hfidb
                · exact ihD p h

/-- C6: during any `backward()` run, each operation is popped (and hence its
backward rule invoked) at most once — the seen-set is keyed by operation
identity — and every operation removed from the worklist has generation at
least that of every operation still on the worklist at that moment. -/
theorem backward_visits_once_in_generation_order (s : State) (v : Nat)
    (retain : Bool) (hwf : wfB s = true) (hv : v < s.vars.length) :
    (((backward s v retain).trace.map Prod.fst).Nodup) ∧
    (∀ p ∈ (backward s v retain).trace, ∀ g ∈ p.2,
      genOfF s g ≤ genOfF s p.1) := by
  have hwfp : WfState s := wfB_implies_wfState hwf
  unfold backward backwardAux
  cases hc : ((seedIfNone s v).varOf v).creator with
  | none =>
      exact ⟨by simp, fun p hp => absurd hp (by simp)⟩
  | some c =>
      simp only
      have hext1 : Extends s (seedIfNone s v) := extends_seedIfNone s v
      have hceq : (s.varOf v).creator = some c := by
        rw [← creator_of_extends hext1 v hv]
        exact hc
      have hcb : c < s.funcs.length := (hwfp.2 v hv c hceq).1
      have hinv0 : WorklistInv s [] [] :=
        ⟨List.nodup_nil, fun f hf => absurd hf (by simp),
          fun f hf => absurd hf (by simp), fun f hf => absurd hf (by simp),
          List.sorted_nil⟩
      obtain ⟨b1, _, _, _, _, _, _, _⟩ :=
        addFunc_spec s (seedIfNone s v) hext1 c hcb [] [] hinv0
      have hgen : genOfF (seedIfNone s v) = genOfF s := by
        funext g
        unfold genOfF State.funcOf
        rw [seedIfNone_funcs]
      obtain ⟨_, hB, hC, _⟩ :=
        bwLoop_trace_spec s retain hwfp ((seedIfNone s v).funcs.length + 1)
          (seedIfNone s v)
          (addFunc (seedIfNone s v) c [] []).1 (addFunc (seedIfNone s v) c [] []).2
          hext1 b1
      exact ⟨hB, hC⟩

/-- C6 witness: a concrete two-operation run (the graph `z = neg(neg(x))`)
satisfying the well-formedness hypothesis. -/
theorem backward_visits_once_in_generation_order_witness :
    (wfB (negF (negF (newVar emptyState ⟨[1], [4]⟩).2 0).2 1).2 = true) ∧
    (2 < (negF (negF (newVar emptyState ⟨[1], [4]⟩).2 0).2 1).2.vars.length) ∧
    ((((backward (negF (negF (newVar emptyState ⟨[1], [4]⟩).2 0).2 1).2 2
        false).trace.map Prod.fst).Nodup) ∧
      (∀ p ∈ (backward (negF (negF (newVar emptyState ⟨[1], [4]⟩).2 0).2 1).2 2
          false).trace, ∀ g ∈ p.2,
        genOfF (negF (negF (newVar emptyState ⟨[1], [4]⟩).2 0).2 1).2 g ≤
          genOfF (negF (negF (newVar emptyState ⟨[1], [4]⟩).2 0).2 1).2 p.1)) :=
  ⟨by decide, by decide,
    backward_visits_once_in_generation_order
      (negF (negF (newVar emptyState ⟨[1], [4]⟩).2 0).2 1).2 2 false
      (by decide) (by decide)⟩

theorem bwLoop_clear_spec (s0 : State) (hwf : WfState s0) (fuel : Nat) :
    ∀ (s : State) (funcs seen popped : List Nat),
      Extends s0 s →
      WorklistInv s0 funcs seen →
      (∀ p ∈ popped, p < s0.funcs.length) →
      (∀ p ∈ popped, p ∈ seen) →
      (∀ p ∈ popped, p ∉ funcs) →
      (∀ p ∈ popped, ∀ q ∈ funcs, genOfF s0 q ≤ genOfF s0 p) →
      (∀ g ∈ seen, g ∈ popped ∨ g ∈ funcs) →
      (∀ x, x < s0.vars.length → ∀ c, (s0.varOf x).creator = some c →
        c ∈ popped → (s.varOf x).grad = none) →
      (bwLoop false fuel s funcs seen).err = none →
      ((∀ g ∈ seen, g ∈ popped ∨
          g ∈ (bwLoop false fuel s funcs seen).trace.map Prod.fst) ∧
       (∀ x, x < s0.vars.length → ∀ c, (s0.varOf x).creator = some c →
          (c ∈ popped ∨ c ∈ (bwLoop false fuel s funcs seen).trace.map Prod.fst) →
          ((bwLoop false fuel s funcs seen).st.varOf x).grad = none) ∧
       (∀ x, x < s0.vars.length → (s0.varOf x).creator = none →
          ((s.varOf x).grad ≠ none ∨
            ∃ p ∈ (bwLoop false fuel s funcs seen).trace,
              x ∈ (s0.funcOf p.1).inputs) →
          ((bwLoop false fuel s funcs seen).st.varOf x).grad ≠ none) ∧
       (∀ p ∈ (bwLoop false fuel s funcs seen).trace,
          ∀ x ∈ (s0.funcOf p.1).inputs, ∀ cx, (s0.varOf x).creator = some cx →
          ((bwLoop false fuel s funcs seen).st.varOf x).grad = none)) := by
  induction fuel with
  | zero =>
      intro s funcs seen popped hext hinv hpb hps hpf hpg hseen hclr herr
      unfold bwLoop at herr ⊢
      by_cases hfe : funcs = []
      · simp only [if_pos hfe] at herr ⊢
        refine ⟨?_, ?_, ?_, ?_⟩
        · intro g hg
          rcases hseen g hg with h | h
          · exact Or.inl h
          · rw [hfe] at h
            exact absurd h (by simp)
        · intro x hx c hc hcp
          rcases hcp with h | h
          · exact hclr x hx c hc h
          · exact absurd h (by simp)
        · intro x hx hc hpre
          rcases hpre with h | ⟨p, hp, _⟩
          · exact h
          · exact absurd hp (by simp)
        · intro p hp
          exact absurd hp (by simp)
      · simp only [if_neg hfe] at herr
        exact absurd herr (by simp)
  | succ n ih =>
      intro s funcs seen popped hext hinv hpb hps hpf hpg hseen hclr herr
      unfold bwLoop at herr ⊢
      cases hl : funcs.getLast? with
      | none =>
          simp only [hl] at herr ⊢
          have hfe : funcs = [] := by
            cases funcs with
            | nil => rfl
            | cons a l =>
                rw [List.getLast?_eq_getLast _ (List.cons_ne_nil a l)] at hl
                exact absurd hl (by simp)
          refine ⟨?_, ?_, ?_, ?_⟩
          · intro g hg
            rcases hseen g hg with h | h
            · exact Or.inl h
            · rw [hfe] at h
              exact absurd h (by simp)
          · intro x hx c hc hcp
            rcases hcp with h | h
            · exact hclr x hx c hc h
            · exact absurd h (by simp)
          · intro x hx hc hpre
            rcases hpre with h | ⟨p, hp, _⟩
            · exact h
            · exact absurd hp (by simp)
          · intro p hp
            exact absurd hp (by simp)
      | some fid =>
          simp only [hl] at herr ⊢
          cases hp : processPop s fid false funcs.dropLast seen with
          | none =>
              simp only [hp] at herr
              exact absurd herr (by simp)
          | some r =>
              obtain ⟨s3, funcs2, seen2⟩ := r
              simp only [hp] at herr ⊢
              have hfidmem : fid ∈ funcs := (getLast?_cases funcs fid hl).2
              have hfuncsdec : funcs = funcs.dropLast ++ [fid] :=
                (getLast?_cases funcs fid hl).1
              have hfidb : fid < s0.funcs.length := hinv.2.1 fid hfidmem
              have hfidseen : fid ∈ seen := hinv.2.2.1 fid hfidmem
              have hfidnp : fid ∉ popped := fun hc => hpf fid hc hfidmem
              have hinvd : WorklistInv s0 funcs.dropLast seen :=
                worklistInv_dropLast s0 funcs seen hinv
              have hdl : ∀ g ∈ funcs.dropLast, g ∈ funcs :=
                fun g hg => (List.dropLast_sublist funcs).subset hg
              obtain ⟨p1, p2, p3, p4, p5, p6, p7⟩ :=
                processPop_worklist s0 s fid false funcs.dropLast seen s3 funcs2
                  seen2 hwf hext hfidb hinvd hp
              obtain ⟨g1, g2, g3⟩ :=
                processPop_grad s0 s fid funcs.dropLast seen s3 funcs2 seen2
                  hwf hext hfidb hp
              have hext3 : Extends s0 s3 := extends_trans hext (extends_processPop hp)
              have hlastge := sorted_last_ge s0 funcs fid hinv.2.2.2.2 hl
              have hfid_ndl := last_not_in_dropLast funcs fid hl hinv.1
              -- facts about which old variables relate to fid
              have hout_cr : ∀ w ∈ (s0.funcOf fid).outputs,
                  (s0.varOf w).creator = some fid :=
                fun w hw => ((hwf.1 fid hfidb).2.1 w hw).2
              have hin_gen : ∀ x ∈ (s0.funcOf fid).inputs, ∀ c,
                  (s0.varOf x).creator = some c →
                  genOfF s0 c < genOfF s0 fid :=
                fun x hx c hc => (((hwf.1 fid hfidb).2.2 x hx).2 c hc).2
              -- the new popped list
              have hpb2 : ∀ p ∈ popped ++ [fid], p < s0.funcs.length := by
                intro p hpm
                rcases List.mem_append.mp hpm with h | h
                · exact hpb p h
                · rw [List.mem_singleton] at h
                  exact h ▸ hfidb
              have hps2 : ∀ p ∈ popped ++ [fid], p ∈ seen2 := by
                intro p hpm
                rcases List.mem_append.mp hpm with h | h
                · exact p3 p (hps p h)
                · rw [List.mem_singleton] at h
                  exact h ▸ p3 fid hfidseen
              have hpf2 : ∀ p ∈ popped ++ [fid], p ∉ funcs2 := by
                intro p hpm hc
                rcases List.mem_append.mp hpm with h | h
                · rcases p4 p hc with h2 | h2
                  · exact hpf p h (hdl p h2)
                  · exact h2 (hps p h)
                · rw [List.mem_singleton] at h
                  subst h
                  rcases p4 p hc with h2 | h2
                  · exact hfid_ndl h2
                  · exact h2 hfidseen
              have hpg2 : ∀ p ∈ popped ++ [fid], ∀ q ∈ funcs2,
                  genOfF s0 q ≤ genOfF s0 p := by
                intro p hpm q hq
                have hqb : genOfF s0 q ≤ genOfF s0 fid := by
                  rcases p6 q hq with h2 | ⟨x, hx, hxc⟩
                  · exact hlastge q h2
                  · exact le_of_lt (hin_gen x hx q hxc)
                rcases List.mem_append.mp hpm with h | h
                · exact le_trans hqb (hpg p h fid hfidmem)
                · rw [List.mem_singleton] at h
                  exact h ▸ hqb
              have hseen2 : ∀ g ∈ seen2, g ∈ popped ++ [fid] ∨ g ∈ funcs2 := by
                intro g hg
                rcases p5 g hg with h | h
                · rcases hseen g h with h2 | h2
                  · exact Or.inl (List.mem_append_left _ h2)
                  · rw [hfuncsdec] at h2
                    rcases List.mem_append.mp h2 with h3 | h3
                    · exact Or.inr (p2 g h3)
                    · rw [List.mem_singleton] at h3
                      exact Or.inl (List.mem_append_right _ (by simp [h3]))
                · exact Or.inr h
              have hclr2 : ∀ x, x < s0.vars.length → ∀ c,
                  (s0.varOf x).creator = some c → c ∈ popped ++ [fid] →
                  (s3.varOf x).grad = none := by
                intro x hx c hc hcp
                rcases List.mem_append.mp hcp with h | h
                · -- creator already popped earlier: x touches neither the
                  -- inputs nor the outputs of fid, so its grad stays none
                  have hxo : x ∉ (s0.funcOf fid).outputs := by
                    intro hxo
                    have h2 := hout_cr x hxo
                    rw [hc] at h2
                    have h3 : c = fid := Option.some.inj h2
                    exact hfidnp (h3 ▸ h)
                  have hxi : x ∉ (s0.funcOf fid).inputs := by
                    intro hxi
                    have h2 := hin_gen x hxi c hc
                    have h3 := hpg c h fid hfidmem
                    omega
                  rw [g3 x hx hxo hxi]
                  exact hclr x hx c hc h
                · rw [List.mem_singleton] at h
                  subst h
                  have hxo : x ∈ (s0.funcOf c).outputs := by
                    rw [(hwf.2 x hx c hc).2]
                    simp
                  exact g1 x hxo
              obtain ⟨ih1, ih2, ih3, ih4⟩ :=
                ih s3 funcs2 seen2 (popped ++ [fid]) hext3 p1 hpb2 hps2 hpf2
                  hpg2 hseen2 hclr2 herr
              -- leaf gradients survive this iteration
              have hleafstep : ∀ x, x < s0.vars.length →
                  (s0.varOf x).creator = none → (s.varOf x).grad ≠ none →
                  (s3.varOf x).grad ≠ none := by
                intro x hx hc hne
                have hxo : x ∉ (s0.funcOf fid).outputs := by
                  intro hxo
                  have h2 := hout_cr x hxo
                  rw [hc] at h2
                  exact Option.noConfusion h2
                by_cases hxi : x ∈ (s0.funcOf fid).inputs
                · obtain ⟨gg, hgg⟩ := g2 x hx hxo hxi
                  rw [hgg]
                  exact fun hcon => Option.noConfusion hcon
                · rw [g3 x hx hxo hxi]
                  exact hne
              refine ⟨?_, ?_, ?_, ?_⟩
              · intro g hg
                rcases ih1 g (p3 g hg) with h | h
                · rcases List.mem_append.mp h with h2 | h2
                  · exact Or.inl h2
                  · rw [List.mem_singleton] at h2
                    subst h2
                    exact Or.inr (by simp)
                · exact Or.inr (by
                    simp only [List.map_cons]
                    exact List.mem_cons_of_mem _ h)
              · intro x hx c hc hcp
                refine ih2 x hx c hc ?_
                rcases hcp with h | h
                · exact Or.inl (List.mem_append_left _ h)
                · simp only [List.map_cons] at h
                  rcases List.mem_cons.mp h with h2 | h2
                  · exact Or.inl (List.mem_append_right _ (by simp [h2]))
                  · exact Or.inr h2
              · intro x hx hc hpre
                refine ih3 x hx hc ?_
                rcases hpre with h | ⟨p, hpm, hxin⟩
                · exact Or.inl (hleafstep x hx hc h)
                · rcases List.mem_cons.mp hpm with h2 | h2
                  · subst h2
                    refine Or.inl ?_
                    have hxo : x ∉ (s0.funcOf fid).outputs := by
                      intro hxo
                      have h3 := hout_cr x hxo
                      rw [hc] at h3
                      exact Option.noConfusion h3
                    obtain ⟨gg, hgg⟩ := g2 x hx hxo hxin
                    rw [hgg]
                    exact fun hcon => Option.noConfusion hcon
                  · exact Or.inr ⟨p, h2, hxin⟩
              · intro p hpm x hxin cx hcx
                rcases List.mem_cons.mp hpm with h2 | h2
                · subst h2
                  have hxb : x < s0.vars.length :=
                    ((hwf.1 fid hfidb).2.2 x hxin).1
                  have hcxseen : cx ∈ seen2 := p7 x hxin cx hcx
                  exact ih2 x hxb cx hcx (ih1 cx hcxseen)
                · exact ih4 p h2 x hxin cx hcx

/-- C8: after `y.backward(retain_grad=False)` completes on a node with a
creator, every node visited by the pass that itself has a creator — `y`
itself, and every input of a processed operation whose creator is present —
has its gradient cleared, while every leaf (creator-less) input of a
processed operation retains its accumulated gradient. -/
theorem backward_clears_nonleaf_retains_leaf_grads (s : State) (v : Nat)
    (hwf : wfB s = true) (hv : v < s.vars.length)
    (hcr : (s.varOf v).creator ≠ none)
    (herr : (backward s v false).err = none) :
    (((backward s v false).st.varOf v).grad = none) ∧
    (∀ p ∈ (backward s v false).trace, ∀ x ∈ (s.funcOf p.1).inputs,
      (∀ cx, (s.varOf x).creator = some cx →
        ((backward s v false).st.varOf x).grad = none) ∧
      ((s.varOf x).creator = none →
        ((backward s v false).st.varOf x).grad ≠ none)) := by
  have hwfp : WfState s := wfB_implies_wfState hwf
  have hext1 : Extends s (seedIfNone s v) := extends_seedIfNone s v
  obtain ⟨c, hceq⟩ : ∃ c, (s.varOf v).creator = some c := by
    cases hcc : (s.varOf v).creator with
    | none => exact absurd hcc hcr
    | some c => exact ⟨c, rfl⟩
  have hc1 : ((seedIfNone s v).varOf v).creator = some c := by
    rw [creator_of_extends hext1 v hv]
    exact hceq
  have heq : backward s v false =
      bwLoop false ((seedIfNone s v).funcs.length + 1) (seedIfNone s v)
        (addFunc (seedIfNone s v) c [] []).1
        (addFunc (seedIfNone s v) c [] []).2 := by
    unfold backward backwardAux
    rw [hc1]
  rw [heq] at herr ⊢
  have hcb : c < s.funcs.length := (hwfp.2 v hv c hceq).1
  have hinv0 : WorklistInv s [] [] :=
    ⟨List.nodup_nil, fun f hf => absurd hf (by simp),
      fun f hf => absurd hf (by simp), fun f hf => absurd hf (by simp),
      List.sorted_nil⟩
  obtain ⟨b1, b2, b3, b4, b5, b6, b7, b8⟩ :=
    addFunc_spec s (seedIfNone s v) hext1 c hcb [] [] hinv0
  obtain ⟨L1, L2, L3, L4⟩ :=
    bwLoop_clear_spec s hwfp ((seedIfNone s v).funcs.length + 1)
      (seedIfNone s v) (addFunc (seedIfNone s v) c [] []).1
      (addFunc (seedIfNone s v) c [] []).2 [] hext1 b1
      (fun p hp => absurd hp (by simp)) (fun p hp => absurd hp (by simp))
      (fun p hp => absurd hp (by simp))
      (fun p hp => absurd hp (by simp))
      (fun g hg => Or.inr (b1.2.2.1 g hg))
      (fun x hx cc hcc hcp => absurd hcp (by simp)) herr
  obtain ⟨_, _, _, LD⟩ :=
    bwLoop_trace_spec s false hwfp ((seedIfNone s v).funcs.length + 1)
      (seedIfNone s v) (addFunc (seedIfNone s v) c [] []).1
      (addFunc (seedIfNone s v) c [] []).2 hext1 b1
  constructor
  · have hcin : c ∈ (bwLoop false ((seedIfNone s v).funcs.length + 1)
        (seedIfNone s v) (addFunc (seedIfNone s v) c [] []).1
        (addFunc (seedIfNone s v) c [] []).2).trace.map Prod.fst := by
      rcases L1 c b6 with h | h
      · exact absurd h (by simp)
      · exact h
    exact L2 v hv c hceq (Or.inr hcin)
  · intro p hpm x hxin
    have hpb : p.1 < s.funcs.length := LD p hpm
    have hxb : x < s.vars.length := ((hwfp.1 p.1 hpb).2.2 x hxin).1
    constructor
    · intro cx hcx
      exact L4 p hpm x hxin cx hcx
    · intro hcx
      exact L3 x hxb hcx (Or.inr ⟨p, hpm, hxin⟩)

/-- C8 witness: the frame property on the concrete run `z = neg(neg(x))`,
`z.backward(retain_grad=False)`. -/
theorem backward_clears_nonleaf_retains_leaf_grads_witness :
    (wfB (negF (negF (newVar emptyState ⟨[1], [4]⟩).2 0).2 1).2 = true) ∧
    (2 < (negF (negF (newVar emptyState ⟨[1], [4]⟩).2 0).2 1).2.vars.length) ∧
    ((negF (negF (newVar emptyState ⟨[1], [4]⟩).2 0).2 1).2.varOf 2).creator ≠ none ∧
    (backward (negF (negF (newVar emptyState ⟨[1], [4]⟩).2 0).2 1).2 2 false).err =
      none ∧
    ((((backward (negF (negF (newVar emptyState ⟨[1], [4]⟩).2 0).2 1).2 2
        false).st.varOf 2).grad = none) ∧
      (∀ p ∈ (backward (negF (negF (newVar emptyState ⟨[1], [4]⟩).2 0).2 1).2 2
          false).trace,
        ∀ x ∈ ((negF (negF (newVar emptyState ⟨[1], [4]⟩).2 0).2 1).2.funcOf
          p.1).inputs,
        (∀ cx, ((negF (negF (newVar emptyState ⟨[1], [4]⟩).2 0).2 1).2.varOf
            x).creator = some cx →
          ((backward (negF (negF (newVar emptyState ⟨[1], [4]⟩).2 0).2 1).2 2
            false).st.varOf x).grad = none) ∧
        (((negF (negF (newVar emptyState ⟨[1], [4]⟩).2 0).2 1).2.varOf
            x).creator = none →
          ((backward (negF (negF (newVar emptyState ⟨[1], [4]⟩).2 0).2 1).2 2
            false).st.varOf x).grad ≠ none))) :=
  ⟨by decide, by decide, by decide, by decide,
    backward_clears_nonleaf_retains_leaf_grads
      (negF (negF (newVar emptyState ⟨[1], [4]⟩).2 0).2 1).2 2
      (by decide) (by decide) (by decide) (by decide)⟩

end MyTorch
